import Mathlib

/-!
Verification of the shaka-packager media packaging pipeline.

This file shallowly embeds the parts of the C++ source relevant to the
checked claims:

* `media/base/key_source.cc` (fixed key source),
* the AES-CTR IV advancement (`UpdateIv`, modelled from the spec since the
  encryptor implementation is not in the tree; its unit test
  `media/base/aes_encryptor_unittest.cc` supplies the expected vectors),
* `media/formats/mp4/single_segment_segmenter.cc`,
* `packager/mpd/base/mpd_builder.cc` (`Representation::AddNewSegment` and
  `Representation::SlideWindow`),
* `packager/hls/base/media_playlist.cc` and `master_playlist.cc`,
* `packager/media/chunking/cue_alignment_handler.cc`,
* `packager/media/base/demuxer.cc` (`Demuxer::Run` / `Demuxer::Parse`).

Machine integers are modelled as `Nat`/`Int` with explicit wrap where the
code can overflow; C++ `double` quantities are modelled as `ℚ` (only order
comparisons and exact ratios of integers matter for the claims).
-/

namespace Shaka

/-- Error codes of `media/base/status.h` (the subset the embedded code uses). -/
inductive ErrorCode where
  | ok
  | unknownError
  | invalidArgument
  | unimplemented
  | notFound
  | parserFailure
  | fileFailure
  | endOfStream
  | cancelled
  deriving DecidableEq, Repr

/-- `Status(code, message)` as used throughout the source. -/
structure Status where
  code : ErrorCode
  message : String
  deriving DecidableEq, Repr

/-- `Status::OK`. -/
def Status.okStatus : Status := ⟨ErrorCode.ok, ""⟩

/-- `Status::ok()`. -/
def Status.isOk (s : Status) : Bool := s.code == ErrorCode.ok

/-! ## Byte-string helpers (big-endian integers, as in `BufferWriter`). -/

/-- Value of a big-endian byte string (most significant byte first). -/
def beBytesToNat : List Nat → Nat
  | [] => 0
  | b :: rest => b * 2 ^ (8 * rest.length) + beBytesToNat rest

/-- Big-endian encoding of `n` into exactly `len` bytes (truncating above). -/
def natToBeBytes : Nat → Nat → List Nat
  | 0, _ => []
  | len + 1, n => natToBeBytes len (n / 256) ++ [n % 256]

/-! ## `media/base/key_source.cc`: the fixed key source. -/

/-- `EncryptionKey` from `media/base/key_source.h`: key id, key, optional iv,
and the synthesized pssh box, all byte vectors. -/
structure EncryptionKey where
  key_id : List Nat
  key : List Nat
  iv : List Nat
  pssh : List Nat
  deriving DecidableEq, Repr

/-- Track types of `KeySource` (`TRACK_TYPE_*`). -/
inductive TrackType where
  | unknownTrack
  | sd
  | hd
  | audio
  deriving DecidableEq, Repr

/-- The fixed `KeySource`: it stores a single `encryption_key_`
(`KeySource::KeySource(scoped_ptr<EncryptionKey>)`). -/
structure KeySource where
  encryption_key : EncryptionKey
  deriving DecidableEq, Repr

/-- `KeySource::GetKey(TrackType, EncryptionKey*)`: copies the stored key and
returns OK regardless of the track type.  The returned triple is
(status, output key, state of the source after the call). -/
def KeySource.getKeyByTrackType (s : KeySource) (_track_type : TrackType) :
    Status × EncryptionKey × KeySource :=
  (Status.okStatus, s.encryption_key, s)

/-- `KeySource::GetKey(const std::vector<uint8>& key_id, EncryptionKey*)`:
returns NOT_FOUND when the queried key id differs from the stored one,
otherwise copies the stored key.  The triple is (status, output key if any,
state of the source after the call). -/
def KeySource.getKeyById (s : KeySource) (key_id : List Nat) :
    Status × Option EncryptionKey × KeySource :=
  if key_id ≠ s.encryption_key.key_id then
    (⟨ErrorCode.notFound, "Key for key ID was not found."⟩, none, s)
  else
    (Status.okStatus, some s.encryption_key, s)

/-! ## AES-CTR IV advancement.

The encryptor implementation (`media/base/aes_encryptor.cc`) is not in the
source tree; only its unit test is.  `updateIv` is therefore modelled from
the spec and checked against the expected IVs of the test
(`kIvTestCases` / `AesCtrEncryptorIvTest::IvTest`). -/

/-- Modelled from the spec: `AesCtrEncryptor::UpdateIv()`
(`media/base/aes_encryptor.cc` is missing from the tree).  Per the spec,
"for 16-byte IVs add the block count of the just-encrypted sample to the IV
as a 128-bit big-endian integer with wrap; for 8-byte IVs increment the IV
as a 64-bit big-endian integer".  `block_count` is the number of AES blocks
of the just-encrypted sample. -/
def updateIv (iv : List Nat) (block_count : Nat) : List Nat :=
  if iv.length = 16 then
    natToBeBytes 16 ((beBytesToNat iv + block_count) % 2 ^ 128)
  else
    natToBeBytes 8 ((beBytesToNat iv + 1) % 2 ^ 64)

/-- The IV vectors of `kIvTestCases` in `media/base/aes_encryptor_unittest.cc`.
The test encrypts a 60-byte sample (4 AES blocks: 3 full and 1 partial). -/
def kIv128Zero : List Nat := [0, 0, 0, 0, 0, 0, 0, 0, 0, 0, 0, 0, 0, 0, 0, 0]

/-- Expected IV after a 4-block sample starting from the zero 128-bit IV. -/
def kIv128Four : List Nat := [0, 0, 0, 0, 0, 0, 0, 0, 0, 0, 0, 0, 0, 0, 0, 4]

/-- 128-bit IV whose low 64 bits are all ones. -/
def kIv128Max64 : List Nat :=
  [0, 0, 0, 0, 0, 0, 0, 0, 0xff, 0xff, 0xff, 0xff, 0xff, 0xff, 0xff, 0xff]

/-- Expected IV after a 4-block sample starting from `kIv128Max64`. -/
def kIv128OneAndThree : List Nat :=
  [0, 0, 0, 0, 0, 0, 0, 1, 0, 0, 0, 0, 0, 0, 0, 3]

/-- 128-bit IV of value 2^128 - 2. -/
def kIv128MaxMinusOne : List Nat :=
  [0xff, 0xff, 0xff, 0xff, 0xff, 0xff, 0xff, 0xff,
   0xff, 0xff, 0xff, 0xff, 0xff, 0xff, 0xff, 0xfe]

/-- Expected IV after a 4-block sample starting from `kIv128MaxMinusOne`. -/
def kIv128Two : List Nat := [0, 0, 0, 0, 0, 0, 0, 0, 0, 0, 0, 0, 0, 0, 0, 2]

/-- 64-bit zero IV. -/
def kIv64Zero : List Nat := [0, 0, 0, 0, 0, 0, 0, 0]

/-- Expected IV after one sample starting from the zero 64-bit IV. -/
def kIv64One : List Nat := [0, 0, 0, 0, 0, 0, 0, 1]

/-- 64-bit IV of value 2^64 - 2. -/
def kIv64MaxMinusOne : List Nat := [0xff, 0xff, 0xff, 0xff, 0xff, 0xff, 0xff, 0xfe]

/-- 64-bit IV of value 2^64 - 1. -/
def kIv64Max : List Nat := [0xff, 0xff, 0xff, 0xff, 0xff, 0xff, 0xff, 0xff]

/-! ## `media/formats/mp4/single_segment_segmenter.cc`.

Boxes are modelled by their serialized bytes: a box's `Write(buffer)`
appends its serialization and `ComputeSize()` returns that serialization's
length (the box invariant of `box_definitions.cc`, where `ComputeSize` is
always computed before writing).  The `sidx` box is modelled structurally,
with its serialization following `SegmentIndex::ReadWrite` and
`SegmentIndex::ComputeSize`. -/

/-- `SegmentReference` of `box_definitions.h`.  `sap_type` is the numeric
`SAPType` value; `TypeUnknown` is 0.  `referenced_size`,
`subsegment_duration` and `sap_delta_time` are `uint32`,
`earliest_presentation_time` is `uint64`. -/
structure SegmentReference where
  reference_type : Bool
  referenced_size : Nat
  subsegment_duration : Nat
  earliest_presentation_time : Nat
  starts_with_sap : Bool
  sap_type : Nat
  sap_delta_time : Nat
  deriving DecidableEq, Repr

/-- `SegmentReference::TypeUnknown`. -/
def kSapTypeUnknown : Nat := 0

/-- `SegmentIndex` box (`sidx`). -/
structure SegmentIndex where
  reference_id : Nat
  timescale : Nat
  earliest_presentation_time : Nat
  first_offset : Nat
  references : List SegmentReference
  deriving DecidableEq, Repr

/-- Version selection of `SegmentIndex::ComputeSize`: version 0 when both
`earliest_presentation_time` and `first_offset` fit 32 bits, else 1. -/
def SegmentIndex.boxVersion (s : SegmentIndex) : Nat :=
  if s.earliest_presentation_time < 2 ^ 32 ∧ s.first_offset < 2 ^ 32 then 0
  else 1

/-- `SegmentIndex::ComputeSize()`: `kFullBoxSize + 4 + 4 +
4*(1+version)*2 + 2*2 + 12*reference_count`. -/
def SegmentIndex.computeSize (s : SegmentIndex) : Nat :=
  12 + 4 + 4 + 4 * (1 + s.boxVersion) * 2 + 2 * 2 + 3 * 4 * s.references.length

/-- Serialization of one 12-byte reference entry per
`SegmentIndex::ReadWrite` (write path): `reference_type` in bit 31 of the
first word, `subsegment_duration`, then `starts_with_sap`/`sap_type`/
`sap_delta_time` packed into the third word. -/
def serializeReference (r : SegmentReference) : List Nat :=
  let reference_type_size :=
    if r.reference_type then r.referenced_size ||| 2 ^ 31 else r.referenced_size
  let sap0 := r.sap_type * 2 ^ 28 ||| r.sap_delta_time
  let sap := if r.starts_with_sap then sap0 ||| 2 ^ 31 else sap0
  natToBeBytes 4 reference_type_size ++ natToBeBytes 4 r.subsegment_duration ++
    natToBeBytes 4 sap

/-- The fourCC 'sidx'. -/
def fourccSidx : Nat := 0x73696478

/-- Serialization of the whole `sidx` box per the write path of
`SegmentIndex::ReadWrite` (full box header, reference id, timescale,
earliest presentation time and first offset in 4 or 8 bytes depending on
the version, reserved + reference count, then the reference entries). -/
def serializeSidx (s : SegmentIndex) : List Nat :=
  let v := s.boxVersion
  let nb := if v = 1 then 8 else 4
  natToBeBytes 4 s.computeSize ++ natToBeBytes 4 fourccSidx ++
    [v] ++ natToBeBytes 3 0 ++
    natToBeBytes 4 s.reference_id ++ natToBeBytes 4 s.timescale ++
    natToBeBytes nb s.earliest_presentation_time ++
    natToBeBytes nb s.first_offset ++
    natToBeBytes 2 0 ++ natToBeBytes 2 s.references.length ++
    (s.references.map serializeReference).flatten

/-- `SingleSegmentSegmenter` state: serialized `ftyp` and `moov`, the
accumulated VOD `sidx`, and the temp file contents (the fragments appended
so far by `DoFinalizeSegment`). -/
structure SingleSegmentSegmenter where
  ftyp : List Nat
  moov : List Nat
  vod_sidx : Option SegmentIndex
  temp_file : List Nat
  deriving Repr

/-- `SingleSegmentSegmenter::GetInitRange`: offset 0, size
`ftyp()->ComputeSize() + moov()->ComputeSize()`. -/
def SingleSegmentSegmenter.getInitRange (s : SingleSegmentSegmenter) : Nat × Nat :=
  (0, s.ftyp.length + s.moov.length)

/-- `SingleSegmentSegmenter::GetIndexRange`: offset
`ftyp()->ComputeSize() + moov()->ComputeSize()`, size
`vod_sidx_->ComputeSize()` (requires `vod_sidx_` to exist). -/
def SingleSegmentSegmenter.getIndexRange (s : SingleSegmentSegmenter) :
    Option (Nat × Nat) :=
  s.vod_sidx.map fun x => (s.ftyp.length + s.moov.length, x.computeSize)

/-- The merge loop of `SingleSegmentSegmenter::DoFinalizeSegment`: folds all
per-fragment references of the just-closed segment into one subsegment
reference `vod_ref`, tracking `first_sap_time`.  `uint32` accumulators wrap. -/
def mergeVodRef (r0 : SegmentReference) (rest : List SegmentReference) :
    SegmentReference × Nat :=
  rest.foldl
    (fun acc r =>
      let v := acc.1
      let v1 : SegmentReference :=
        { v with
          referenced_size := (v.referenced_size + r.referenced_size) % 2 ^ 32
          subsegment_duration :=
            (v.subsegment_duration + r.subsegment_duration) % 2 ^ 32
          earliest_presentation_time :=
            min v.earliest_presentation_time r.earliest_presentation_time }
      if v.sap_type = kSapTypeUnknown ∧ r.sap_type ≠ kSapTypeUnknown then
        ({ v1 with sap_type := r.sap_type },
          r.sap_delta_time + r.earliest_presentation_time)
      else (v1, acc.2))
    (r0, r0.sap_delta_time + r0.earliest_presentation_time)

/-- `SingleSegmentSegmenter::DoFinalizeSegment`: merges the per-fragment
`sidx()` references into a single subsegment reference, appends it to
`vod_sidx_` (creating `vod_sidx_` on the first segment), and appends the
fragment buffer to the temp file.  The reference list of a finalized segment
is never empty (`refs[0]` is accessed unconditionally). -/
def SingleSegmentSegmenter.doFinalizeSegment (s : SingleSegmentSegmenter)
    (seg : SegmentIndex × List Nat) : SingleSegmentSegmenter :=
  match seg.1.references with
  | [] => s
  | r0 :: rest =>
    let m := mergeVodRef r0 rest
    let vod_ref0 := m.1
    let vod_ref :=
      if vod_ref0.sap_type ≠ kSapTypeUnknown then
        { vod_ref0 with
          sap_delta_time :=
            (m.2 + 2 ^ 64 - vod_ref0.earliest_presentation_time) % 2 ^ 64 %
              2 ^ 32 }
      else vod_ref0
    let sidx0 :=
      match s.vod_sidx with
      | some x => x
      | none =>
        { reference_id := seg.1.reference_id
          timescale := seg.1.timescale
          earliest_presentation_time := vod_ref.earliest_presentation_time
          first_offset := 0
          references := [] }
    { s with
      vod_sidx := some { sidx0 with references := sidx0.references ++ [vod_ref] }
      temp_file := s.temp_file ++ seg.2 }

/-- `SingleSegmentSegmenter::DoFinalize`: writes `ftyp`, `moov` and the VOD
`sidx` to the output file, then copies the temp file contents.  Returns the
output file bytes (`none` when no segment was ever finalized, in which case
the code would dereference a null `vod_sidx_`). -/
def SingleSegmentSegmenter.doFinalize (s : SingleSegmentSegmenter) :
    Option (List Nat) :=
  s.vod_sidx.map fun x => s.ftyp ++ s.moov ++ serializeSidx x ++ s.temp_file

/-- A fresh single-segment segmenter right after `DoInitialize` (empty temp
file, no VOD sidx yet). -/
def SingleSegmentSegmenter.init (ftyp moov : List Nat) : SingleSegmentSegmenter :=
  { ftyp := ftyp, moov := moov, vod_sidx := none, temp_file := [] }

/-- A concrete one-reference per-segment `sidx`, used to evaluate the
single-segment segmenter on an explicit input. -/
def sampleSegmentIndex : SegmentIndex :=
  { reference_id := 1
    timescale := 1000
    earliest_presentation_time := 0
    first_offset := 0
    references :=
      [{ reference_type := false
         referenced_size := 100
         subsegment_duration := 2000
         earliest_presentation_time := 0
         starts_with_sap := true
         sap_type := 1
         sap_delta_time := 0 }] }

/-- A concrete single-segment run: one finalized segment whose fragment
buffer is the three bytes `[7, 7, 7]`. -/
def sampleSegments : List (SegmentIndex × List Nat) :=
  [(sampleSegmentIndex, [7, 7, 7])]

/-! ## `packager/mpd/base/mpd_builder.cc`: `Representation` segment list and
sliding window. -/

/-- `SegmentInfo` of the MPD builder; `repeatCount` is the source's `repeat`
(`repeat == N` means `N+1` consecutive equal-duration segments). -/
structure MpdSegmentInfo where
  start_time : Nat
  duration : Nat
  repeatCount : Nat
  deriving DecidableEq, Repr

/-- `LastSegmentStartTime`: start time of the last segment of the run. -/
def lastSegmentStartTime (s : MpdSegmentInfo) : Nat :=
  s.start_time + s.duration * s.repeatCount

/-- `LastSegmentEndTime`: end time of the run. -/
def lastSegmentEndTime (s : MpdSegmentInfo) : Nat :=
  s.start_time + s.duration * (s.repeatCount + 1)

/-- `LatestSegmentStartTime`: start time of the latest segment
(`DCHECK(!segments.empty())` in the source; 0 on the empty list). -/
def latestSegmentStartTime (l : List MpdSegmentInfo) : Nat :=
  match l.getLast? with
  | some s => lastSegmentStartTime s
  | none => 0

/-- `SearchTimedOutRepeatIndex`: how many leading segments of the run are no
longer valid given `timeshift_limit` (integer division as in the source). -/
def searchTimedOutRepeatIndex (timeshift_limit : Nat) (s : MpdSegmentInfo) : Nat :=
  if timeshift_limit < s.start_time then 0
  else (timeshift_limit - s.start_time) / s.duration

/-- The state of an MPD `Representation` relevant to segment bookkeeping:
the `SegmentInfo` list, `start_number_`, `mpd_options_.time_shift_buffer_depth`
(a `double`, in seconds) and `GetTimeScale(media_info_)`. -/
structure Representation where
  segment_infos : List MpdSegmentInfo
  start_number : Nat
  time_shift_buffer_depth : ℚ
  time_scale : Nat
  deriving DecidableEq, Repr

/-- The removal loop of `Representation::SlideWindow`: drop leading
`SegmentInfo`s whose end time is not past `timeshift_limit`, counting
`repeat + 1` removed segments for each. -/
def removeOutOfRange (timeshift_limit : Nat) :
    List MpdSegmentInfo → List MpdSegmentInfo × Nat
  | [] => ([], 0)
  | s :: rest =>
    if timeshift_limit < lastSegmentEndTime s then (s :: rest, 0)
    else
      let r := removeOutOfRange timeshift_limit rest
      (r.1, r.2 + s.repeatCount + 1)

/-- `time_shift_buffer_depth * time_scale` cast to `uint64` as in
`Representation::SlideWindow` (truncation of a non-negative `double`). -/
def Representation.depthTicks (r : Representation) : Nat :=
  (r.time_shift_buffer_depth * (r.time_scale : ℚ)).floor.toNat

/-- The list-and-counter part of `Representation::SlideWindow` once
`timeshift_limit` is known: remove whole out-of-range `SegmentInfo`s, then
trim the leading `repeat_index` segments of the first remaining run.
Returns the new list and the total number of segments removed (which is
added to `start_number_`). -/
def slideWindowCore (timeshift_limit : Nat) (infos : List MpdSegmentInfo) :
    List MpdSegmentInfo × Nat :=
  let rem := removeOutOfRange timeshift_limit infos
  match rem.1 with
  | [] => ([], rem.2)
  | first :: rest =>
    let ri := searchTimedOutRepeatIndex timeshift_limit first
    if ri = 0 then (first :: rest, rem.2)
    else
      ({ first with
          start_time := first.start_time + first.duration * ri
          repeatCount := first.repeatCount - ri } :: rest,
        rem.2 + ri)

/-- `Representation::SlideWindow`. -/
def Representation.slideWindow (r : Representation) : Representation :=
  if r.time_shift_buffer_depth ≤ 0 then r
  else
    let current_play_time := latestSegmentStartTime r.segment_infos
    if current_play_time ≤ r.depthTicks then r
    else
      let res := slideWindowCore (current_play_time - r.depthTicks)
        r.segment_infos
      { r with segment_infos := res.1, start_number := r.start_number + res.2 }

/-- `Representation::IsContiguous`: true exactly when the new segment starts
at the previous run's end with the same duration (every other path of the
source returns false). -/
def Representation.isContiguous (r : Representation)
    (start_time duration : Nat) : Bool :=
  match r.segment_infos.getLast? with
  | none => false
  | some previous =>
    lastSegmentEndTime previous == start_time && previous.duration == duration

/-- Increment the `repeat` of the last `SegmentInfo`
(`++segment_infos_.back().repeat`). -/
def incrementLastRepeat : List MpdSegmentInfo → List MpdSegmentInfo
  | [] => []
  | [s] => [{ s with repeatCount := s.repeatCount + 1 }]
  | s :: rest => s :: incrementLastRepeat rest

/-- The insertion step of `Representation::AddNewSegment` (before
`SlideWindow()`): extend the last run when contiguous, else push a new
`SegmentInfo` with `repeat = 0`. -/
def Representation.insertNewSegment (r : Representation)
    (start_time duration : Nat) : Representation :=
  if r.isContiguous start_time duration then
    { r with segment_infos := incrementLastRepeat r.segment_infos }
  else
    { r with
      segment_infos :=
        r.segment_infos ++ [⟨start_time, duration, 0⟩] }

/-- `Representation::AddNewSegment(start_time, duration, size)`: ignore a
(0, 0) segment, otherwise insert and slide the window. -/
def Representation.addNewSegment (r : Representation)
    (start_time duration _size : Nat) : Representation :=
  if start_time = 0 ∧ duration = 0 then r
  else (r.insertNewSegment start_time duration).slideWindow

/-- Total number of segments represented by a `SegmentInfo` list (each run
contributes `repeat + 1`). -/
def segmentCount (l : List MpdSegmentInfo) : Nat :=
  (l.map (fun s => s.repeatCount + 1)).sum

/-- End time of the `j`-th segment (0-based) inside a run. -/
def unitEndTime (s : MpdSegmentInfo) (j : Nat) : Nat :=
  s.start_time + s.duration * (j + 1)

/-- Ordering between consecutive `SegmentInfo` runs: the next run starts at
or after the previous run's end. -/
def segChainStep (a b : MpdSegmentInfo) : Prop :=
  lastSegmentEndTime a ≤ b.start_time

/-- A concrete dynamic representation for evaluating the sliding window on
an explicit input: one 10-tick segment at time 0, `start_number` 1,
`time_shift_buffer_depth` 5 seconds, timescale 1. -/
def sampleRepresentation : Representation :=
  { segment_infos := [⟨0, 10, 0⟩]
    start_number := 1
    time_shift_buffer_depth := 5
    time_scale := 1 }

/-! ## `packager/hls/base/media_playlist.cc`. -/

/-- `MediaPlaylist::MediaPlaylistType`. -/
inductive MediaPlaylistType where
  | vod
  | event
  | live
  deriving DecidableEq, Repr

/-- `MediaPlaylist::EncryptionMethod`. -/
inductive EncryptionMethod where
  | kNone
  | kAes128
  | kSampleAes
  | kSampleAesCenc
  deriving DecidableEq, Repr

/-- The `HlsEntry` subclasses: `SegmentInfoEntry` (`#EXTINF`, with file
name, start time and duration in seconds), `EncryptionInfoEntry`
(`#EXT-X-KEY`) and `DiscontinuityEntry` (`#EXT-X-DISCONTINUITY`). -/
inductive HlsEntry where
  | extInf (file_name : String) (start_time duration : ℚ)
  | extKey (method : EncryptionMethod) (url key_id iv key_format
      key_format_versions : String)
  | extDiscontinuity
  deriving DecidableEq, Repr

/-- Whether the entry is an `#EXT-X-KEY` entry. -/
def HlsEntry.isKeyEntry : HlsEntry → Bool
  | HlsEntry.extKey .. => true
  | _ => false

/-- Whether the entry is an `#EXTINF` entry. -/
def HlsEntry.isSegmentEntry : HlsEntry → Bool
  | HlsEntry.extInf .. => true
  | _ => false

/-- `start_time + duration` of an `#EXTINF` entry (0 otherwise). -/
def HlsEntry.entryEnd : HlsEntry → ℚ
  | HlsEntry.extInf _ s d => s + d
  | _ => 0

/-- Only the `#EXTINF` entries of the list. -/
def filterExtInf (l : List HlsEntry) : List HlsEntry :=
  l.filter HlsEntry.isSegmentEntry

/-- Fixed three-decimal rendering used by `SegmentInfoEntry::ToString`
(an exact-rational stand-in for printf `%.3f`; its value is opaque to every
claim). -/
def fmt3 (q : ℚ) : String :=
  let m := (q * 1000 + 1 / 2).floor
  let f := (m % 1000).toNat
  toString (m / 1000) ++ "." ++
    (if f < 10 then "00" else if f < 100 then "0" else "") ++ toString f

/-- `HlsEntry::ToString` of each entry subclass. -/
def HlsEntry.render : HlsEntry → String
  | HlsEntry.extInf file_name _ duration =>
      "#EXTINF:" ++ fmt3 duration ++ ",\n" ++ file_name ++ "\n"
  | HlsEntry.extKey method url key_id iv key_format key_format_versions =>
      let method_attribute :=
        match method with
        | EncryptionMethod.kSampleAes => "METHOD=SAMPLE-AES"
        | EncryptionMethod.kAes128 => "METHOD=AES-128"
        | EncryptionMethod.kSampleAesCenc => "METHOD=SAMPLE-AES-CENC"
        | EncryptionMethod.kNone => "METHOD=NONE"
      let ext_key := "#EXT-X-KEY:" ++ method_attribute ++ ",URI=\"" ++ url ++
        "\""
      let ext_key := if key_id ≠ "" then ext_key ++ ",KEYID=" ++ key_id
        else ext_key
      let ext_key := if iv ≠ "" then ext_key ++ ",IV=" ++ iv else ext_key
      let ext_key := if key_format_versions ≠ "" then
          ext_key ++ ",KEYFORMATVERSIONS=\"" ++ key_format_versions ++ "\""
        else ext_key
      if key_format = "" then ext_key ++ "\n"
      else ext_key ++ ",KEYFORMAT=\"" ++ key_format ++ "\"\n"
  | HlsEntry.extDiscontinuity => "#EXT-X-DISCONTINUITY\n"

/-- First `#EXTINF` start time of the list (helper for the reverse scan of
`LatestSegmentStartTime`). -/
def firstExtInfStart : List HlsEntry → ℚ
  | [] => 0
  | HlsEntry.extInf _ s _ :: _ => s
  | HlsEntry.extKey _ _ _ _ _ _ :: rest => firstExtInfStart rest
  | HlsEntry.extDiscontinuity :: rest => firstExtInfStart rest

/-- `LatestSegmentStartTime` of `media_playlist.cc`: start time of the last
`#EXTINF` entry (0 when none). -/
def hlsLatestSegmentStartTime (entries : List HlsEntry) : ℚ :=
  firstExtInfStart entries.reverse

/-- The state of `MediaPlaylist` relevant to the claims. -/
structure MediaPlaylist where
  type : MediaPlaylistType
  time_shift_buffer_depth : ℚ
  file_name : String
  name : String
  group_id : String
  time_scale : Nat
  media_sequence_number : Nat
  discontinuity_sequence_number : Nat
  longest_segment_duration : ℚ
  target_duration : Nat
  target_duration_set : Bool
  inserted_discontinuity_tag : Bool
  max_bitrate : Nat
  init_segment_name : String
  entries : List HlsEntry
  deriving DecidableEq, Repr

/-- Result of the scanning loop of `MediaPlaylist::SlideWindow`. -/
structure SlideLoopResult where
  remaining : List HlsEntry
  kept_keys : List HlsEntry
  removed : Nat
  disc_passed : Nat
  deriving DecidableEq, Repr

/-- The scanning loop of `MediaPlaylist::SlideWindow`: walk the entries from
the front; collect `#EXT-X-KEY` runs (clearing the collection when a new run
starts), count passed `#EXT-X-DISCONTINUITY` entries, and remove `#EXTINF`
entries until one ends past `timeshift_limit`. -/
def hlsSlideLoop (timeshift_limit : ℚ) :
    List HlsEntry → List HlsEntry → Bool → Nat → Nat → SlideLoopResult
  | [], keys, _, removed, disc => ⟨[], keys, removed, disc⟩
  | HlsEntry.extKey m u k i kf kv :: rest, keys, prevKey, removed, disc =>
      hlsSlideLoop timeshift_limit rest
        ((if prevKey then keys else []) ++ [HlsEntry.extKey m u k i kf kv])
        true removed disc
  | HlsEntry.extDiscontinuity :: rest, keys, _, removed, disc =>
      hlsSlideLoop timeshift_limit rest keys false removed (disc + 1)
  | HlsEntry.extInf f s d :: rest, keys, _, removed, disc =>
      if timeshift_limit < s + d then
        ⟨HlsEntry.extInf f s d :: rest, keys, removed, disc⟩
      else hlsSlideLoop timeshift_limit rest keys false (removed + 1) disc

/-- `MediaPlaylist::SlideWindow`. -/
def MediaPlaylist.slideWindow (p : MediaPlaylist) : MediaPlaylist :=
  if p.time_shift_buffer_depth ≤ 0 ∨ p.type ≠ MediaPlaylistType.live then p
  else
    let current_play_time := hlsLatestSegmentStartTime p.entries
    if current_play_time ≤ p.time_shift_buffer_depth then p
    else
      let res := hlsSlideLoop
        (current_play_time - p.time_shift_buffer_depth) p.entries [] false 0 0
      { p with
        entries := res.kept_keys ++ res.remaining
        media_sequence_number := p.media_sequence_number + res.removed
        discontinuity_sequence_number :=
          p.discontinuity_sequence_number + res.disc_passed }

/-- The entry-insertion part of `MediaPlaylist::AddSegment` (the non-zero
time scale path, before `SlideWindow()`): push the `#EXTINF` entry and
update the longest duration and the bitrate estimate. -/
def MediaPlaylist.appendSegmentEntry (p : MediaPlaylist) (file_name : String)
    (start_time duration size : Nat) : MediaPlaylist :=
  let start_time_seconds := (start_time : ℚ) / (p.time_scale : ℚ)
  let segment_duration_seconds := (duration : ℚ) / (p.time_scale : ℚ)
  { p with
    longest_segment_duration :=
      if segment_duration_seconds > p.longest_segment_duration then
        segment_duration_seconds
      else p.longest_segment_duration
    max_bitrate := max p.max_bitrate
      (((8 * size : ℚ) / segment_duration_seconds).floor.toNat)
    entries := p.entries ++
      [HlsEntry.extInf file_name start_time_seconds segment_duration_seconds] }

/-- `MediaPlaylist::AddSegment`. -/
def MediaPlaylist.addSegment (p : MediaPlaylist) (file_name : String)
    (start_time duration size : Nat) : MediaPlaylist :=
  if p.time_scale = 0 then
    { p with entries := p.entries ++ [HlsEntry.extInf file_name 0 0] }
  else
    (p.appendSegmentEntry file_name start_time duration size).slideWindow

/-- `MediaPlaylist::AddEncryptionInfo`. -/
def MediaPlaylist.addEncryptionInfo (p : MediaPlaylist)
    (method : EncryptionMethod) (url key_id iv key_format
    key_format_versions : String) : MediaPlaylist :=
  let p1 :=
    if ¬ p.inserted_discontinuity_tag then
      { p with
        entries := p.entries ++
          (if p.entries ≠ [] then [HlsEntry.extDiscontinuity] else [])
        inserted_discontinuity_tag := true }
    else p
  { p1 with
    entries := p1.entries ++
      [HlsEntry.extKey method url key_id iv key_format key_format_versions] }

/-- `MediaPlaylist::SetTargetDuration`. -/
def MediaPlaylist.setTargetDuration (p : MediaPlaylist) (target : Nat) :
    MediaPlaylist :=
  { p with target_duration := target, target_duration_set := true }

/-- `CreatePlaylistHeader` of `media_playlist.cc`; `version_line` stands for
the optional "Generated with ..." comment. -/
def createPlaylistHeader (init_segment_name : String) (target_duration : Nat)
    (type : MediaPlaylistType) (media_sequence_number : Nat)
    (discontinuity_sequence_number : Nat) (version_line : String) : String :=
  let header := "#EXTM3U\n#EXT-X-VERSION:6\n" ++ version_line ++
    "#EXT-X-TARGETDURATION:" ++ toString target_duration ++ "\n"
  let header := header ++
    (match type with
     | MediaPlaylistType.vod => "#EXT-X-PLAYLIST-TYPE:VOD\n"
     | MediaPlaylistType.event => "#EXT-X-PLAYLIST-TYPE:EVENT\n"
     | MediaPlaylistType.live =>
        (if media_sequence_number > 0 then
          "#EXT-X-MEDIA-SEQUENCE:" ++ toString media_sequence_number ++ "\n"
         else "") ++
        (if discontinuity_sequence_number > 0 then
          "#EXT-X-DISCONTINUITY-SEQUENCE:" ++
            toString discontinuity_sequence_number ++ "\n"
         else ""))
  if init_segment_name ≠ "" then
    header ++ "#EXT-X-MAP:URI=\"" ++ init_segment_name ++ "\"\n"
  else header

/-- The content-building part of `MediaPlaylist::WriteToFile`: sets the
target duration to `ceil(longest segment duration)` when it was not set
explicitly, then produces (header, body, footer) with
`content = header ++ body ++ footer`; the footer is the `#EXT-X-ENDLIST`
terminator appended exactly for VOD.  Also returns the updated playlist. -/
def MediaPlaylist.writeContent (p : MediaPlaylist) (version_line : String) :
    (String × String × String) × MediaPlaylist :=
  let p1 := if ¬ p.target_duration_set then
      p.setTargetDuration (Int.toNat (Int.ceil p.longest_segment_duration))
    else p
  let header := createPlaylistHeader p1.init_segment_name p1.target_duration
    p1.type p1.media_sequence_number p1.discontinuity_sequence_number
    version_line
  let body := String.join (p1.entries.map HlsEntry.render)
  let footer := if p1.type = MediaPlaylistType.vod then "#EXT-X-ENDLIST\n"
    else ""
  ((header, body, footer), p1)

/-- Splits the entry list at the first `#EXTINF` entry that ends past
`timeshift_limit` (the break point of the `SlideWindow` scanning loop):
first component is the scanned prefix, second the suffix from the first
retained `#EXTINF` on. -/
def hlsScanSplit (timeshift_limit : ℚ) :
    List HlsEntry → List HlsEntry × List HlsEntry
  | [] => ([], [])
  | HlsEntry.extInf f s d :: rest =>
      if timeshift_limit < s + d then ([], HlsEntry.extInf f s d :: rest)
      else
        let r := hlsScanSplit timeshift_limit rest
        (HlsEntry.extInf f s d :: r.1, r.2)
  | HlsEntry.extKey m u k i kf kv :: rest =>
      let r := hlsScanSplit timeshift_limit rest
      (HlsEntry.extKey m u k i kf kv :: r.1, r.2)
  | HlsEntry.extDiscontinuity :: rest =>
      let r := hlsScanSplit timeshift_limit rest
      (HlsEntry.extDiscontinuity :: r.1, r.2)

/-- The trailing maximal run of `#EXT-X-KEY` entries of a list. -/
def lastKeyRun (l : List HlsEntry) : List HlsEntry :=
  (l.reverse.takeWhile HlsEntry.isKeyEntry).reverse

/-- The key-collection state machine of the `SlideWindow` scanning loop in
isolation: processes a prefix, carrying the collected keys and whether the
previous entry was a key. -/
def keptKeysSpec : List HlsEntry → List HlsEntry → Bool → List HlsEntry
  | [], keys, _ => keys
  | HlsEntry.extKey m u k i kf kv :: rest, keys, prevKey =>
      keptKeysSpec rest
        ((if prevKey then keys else []) ++ [HlsEntry.extKey m u k i kf kv]) true
  | HlsEntry.extInf _ _ _ :: rest, keys, _ => keptKeysSpec rest keys false
  | HlsEntry.extDiscontinuity :: rest, keys, _ => keptKeysSpec rest keys false

/-- A concrete live media playlist holding one 2-second segment, used to
evaluate the sliding window on an explicit input. -/
def sampleMediaPlaylist : MediaPlaylist :=
  { type := MediaPlaylistType.live
    time_shift_buffer_depth := 1
    file_name := "stream.m3u8"
    name := "audio"
    group_id := "aud"
    time_scale := 10
    media_sequence_number := 0
    discontinuity_sequence_number := 0
    longest_segment_duration := 2
    target_duration := 0
    target_duration_set := false
    inserted_discontinuity_tag := false
    max_bitrate := 0
    init_segment_name := ""
    entries := [HlsEntry.extInf "s1.ts" 0 2] }

/-- The prev-entry-was-a-key flag after processing a prefix. -/
def prevKeyAfter : List HlsEntry → Bool → Bool
  | [], pk => pk
  | e :: rest, _ => prevKeyAfter rest e.isKeyEntry

/-! ## `packager/media/chunking/cue_alignment_handler.cc`.

The handler is modelled per stream: the other streams only influence a
stream through the promoted cues (`UseNewSyncPoint`) and the hints, which
are inputs of the model.  `SyncPointQueue` itself is not in the tree; per
the spec, promotion happens at the first video key frame at or past the
hint and the promoted cue carries that key frame's time, and
`GetHint` always returns a value greater than the promoted cue's time. -/

/-- Kinds of streams (`kStreamVideo` / `kStreamAudio` / text). -/
inductive StreamKind where
  | video
  | audio
  | text
  deriving DecidableEq, Repr

/-- Samples as seen by the handler: media samples
(`StreamDataType::kMediaSample`) with pts, duration and key-frame flag;
text samples (`kTextSample`) with a start time in milliseconds. -/
inductive CueSample where
  | media (pts duration : ℤ) (is_key_frame : Bool)
  | textSample (start_time : ℤ)
  deriving DecidableEq, Repr

/-- `TimeInSeconds`: media samples are measured by `pts` for video and by
`pts + duration / 2` (C++ truncated int64 division, `Int.tdiv`) for audio, divided by
the stream's time scale; text samples by `start_time / 1000`. -/
def timeInSeconds (kind : StreamKind) (time_scale : ℤ) :
    CueSample → ℚ
  | CueSample.media pts duration _ =>
    match kind with
    | StreamKind.audio =>
        (((pts + Int.tdiv duration 2 : ℤ)) : ℚ) / (time_scale : ℚ)
    | _ => ((pts : ℚ)) / (time_scale : ℚ)
  | CueSample.textSample start_time => ((start_time : ℚ)) / 1000

/-- What the handler dispatches downstream. -/
inductive OutEvent where
  | cueEvent (time : ℚ)
  | sampleEvent (s : CueSample)
  deriving DecidableEq, Repr

/-- `kMaxBufferSize` of `cue_alignment_handler.cc`. -/
def kMaxBufferSize : Nat := 1000

/-- Per-stream `StreamState` of the handler. -/
structure CueStreamState where
  kind : StreamKind
  time_scale : ℤ
  samples : List CueSample
  cue : Option ℚ
  next_cue_hint : ℚ
  deriving DecidableEq, Repr

/-- `CueAlignmentHandler::DispatchCueIfNeeded`: dispatch the pending cue
only when the next sample's time is at or past it (the cue is then moved
out of the stream state). -/
def dispatchCueIfNeeded (next_sample_time_in_seconds : ℚ)
    (st : CueStreamState) : List OutEvent × CueStreamState :=
  match st.cue with
  | none => ([], st)
  | some c =>
    if next_sample_time_in_seconds < c then ([], st)
    else ([OutEvent.cueEvent c], { st with cue := none })

/-- `CueAlignmentHandler::AcceptSample` for a non-video stream: dispatch the
sample (after the cue, when due) if the buffer is empty and the sample is
before the hint; otherwise buffer it, failing when the buffer exceeds
`kMaxBufferSize`. -/
def acceptSample (s : CueSample) (st : CueStreamState) :
    List OutEvent × CueStreamState × Status :=
  let t := timeInSeconds st.kind st.time_scale s
  if st.samples = [] ∧ t < st.next_cue_hint then
    let d := dispatchCueIfNeeded t st
    (d.1 ++ [OutEvent.sampleEvent s], d.2, Status.okStatus)
  else
    let st2 := { st with samples := st.samples ++ [s] }
    if st2.samples.length > kMaxBufferSize then
      ([], st2,
        ⟨ErrorCode.invalidArgument, "Streams are not properly multiplexed."⟩)
    else ([], st2, Status.okStatus)

/-- The drain loop of `CueAlignmentHandler::UseNewSyncPoint` for one
stream: release buffered samples strictly before the (updated) hint,
dispatching the cue in front of the first sample at or past it. -/
def drainSamples (kind : StreamKind) (time_scale : ℤ) (hint : ℚ) :
    List CueSample → Option ℚ → List OutEvent × List CueSample × Option ℚ
  | [], cue => ([], [], cue)
  | s :: rest, cue =>
    let t := timeInSeconds kind time_scale s
    if hint ≤ t then ([], s :: rest, cue)
    else
      let step : List OutEvent × Option ℚ :=
        match cue with
        | none => ([], none)
        | some c =>
          if t < c then ([], some c) else ([OutEvent.cueEvent c], none)
      let r := drainSamples kind time_scale hint rest step.2
      (step.1 ++ OutEvent.sampleEvent s :: r.1, r.2.1, r.2.2)

/-- The per-stream effect of `CueAlignmentHandler::UseNewSyncPoint`: fails
when an undelivered cue is still pending ("Cue events too close together"),
else records the new cue and hint and drains the buffer. -/
def useNewSyncPoint (cue_time new_hint : ℚ) (st : CueStreamState) :
    List OutEvent × CueStreamState × Status :=
  if st.cue.isSome then
    ([], st, ⟨ErrorCode.invalidArgument, "Cue events too close together"⟩)
  else
    let r := drainSamples st.kind st.time_scale new_hint st.samples
      (some cue_time)
    (r.1, { st with samples := r.2.1, cue := r.2.2, next_cue_hint := new_hint },
      Status.okStatus)

/-- The video path of `CueAlignmentHandler::OnSample`.  Modelled from the
spec for the `SyncPointQueue` part (not in the tree): promotion happens at
a key frame at or past the hint, the promoted cue carries that key frame's
time, and `new_hint` is the queue's next hint (always past the promoted
cue).  The cue event is dispatched immediately before the key frame
sample. -/
def videoOnSample (new_hint : ℚ) (s : CueSample) (st : CueStreamState) :
    List OutEvent × CueStreamState :=
  let t := timeInSeconds st.kind st.time_scale s
  let is_key := match s with
    | CueSample.media _ _ k => k
    | CueSample.textSample _ => false
  if is_key = true ∧ st.next_cue_hint ≤ t then
    ([OutEvent.cueEvent t, OutEvent.sampleEvent s],
      { st with cue := some t, next_cue_hint := new_hint })
  else ([OutEvent.sampleEvent s], st)

/-- One input of the per-stream handler model: a sample (with the hint the
sync point queue would hand out if this sample promotes a cue on a video
stream), or a promoted sync point delivered by `UseNewSyncPoint`. -/
inductive HandlerInput where
  | inSample (s : CueSample) (promoted_hint : ℚ)
  | inSync (cue_time new_hint : ℚ)
  deriving DecidableEq, Repr

/-- Process one input on one stream (`Process`/`OnSample` restricted to a
single stream). -/
def processOne (st : CueStreamState) :
    HandlerInput → List OutEvent × CueStreamState × Status
  | HandlerInput.inSample s promoted_hint =>
    if st.kind = StreamKind.video then
      let r := videoOnSample promoted_hint s st
      (r.1, r.2, Status.okStatus)
    else acceptSample s st
  | HandlerInput.inSync cue_time new_hint =>
    useNewSyncPoint cue_time new_hint st

/-- Run the per-stream handler over a sequence of inputs, stopping at the
first error (as `Process` errors propagate). -/
def runHandler (st : CueStreamState) :
    List HandlerInput → List OutEvent × CueStreamState × Status
  | [] => ([], st, Status.okStatus)
  | i :: rest =>
    let r := processOne st i
    if r.2.2.isOk then
      let r2 := runHandler r.2.1 rest
      (r.1 ++ r2.1, r2.2.1, r2.2.2)
    else (r.1, r.2.1, r.2.2)

/-- A dispatched event list is cue-guarded when every cue event is
immediately followed by a sample whose measured time is at or past the cue
time. -/
def cueGuarded (kind : StreamKind) (time_scale : ℤ) : List OutEvent → Bool
  | [] => true
  | OutEvent.sampleEvent _ :: rest => cueGuarded kind time_scale rest
  | OutEvent.cueEvent c :: rest =>
    match rest with
    | OutEvent.sampleEvent s :: rest2 =>
        decide (c ≤ timeInSeconds kind time_scale s) &&
          cueGuarded kind time_scale rest2
    | _ => false

/-! ## `packager/media/base/demuxer.cc`: `Demuxer::Run` and
`Demuxer::Parse`. -/

/-- A sample sitting in a `MediaStream` queue; `eos` is the end-of-stream
sample from `MediaSample::CreateEOSBuffer()`. -/
inductive DemuxSample where
  | real (id : Nat)
  | eos
  deriving DecidableEq, Repr

/-- The outcome of one `media_file_->Read` of `Demuxer::Parse`: a chunk of
bytes (with the result of `parser_->Parse` on it), or a read error
(`bytes_read < 0`).  The chunk list running out models `bytes_read == 0`
(end of file). -/
inductive ChunkRead where
  | bytes (parse_ok : Bool)
  | readError
  deriving DecidableEq, Repr

/-- The `while (!cancelled_ && (status = Parse()).ok())` loop of
`Demuxer::Run`, with `Demuxer::Parse` inlined per chunk: end of file
flushes and yields `END_OF_STREAM` (or `PARSER_FAILURE` when the flush
fails), a read error yields `FILE_FAILURE`, and a chunk yields OK or
`PARSER_FAILURE` according to `parser_->Parse`.  `cancelled i` is the value
of the (externally set) `cancelled_` flag read at the top of iteration `i`.
Returns the final `status` and whether the loop exited through the
cancellation check. -/
def demuxerLoop (cancelled : Nat → Bool) (file_name : String)
    (flushOk : Bool) : Nat → List ChunkRead → Status × Bool
  | i, chunks =>
    if cancelled i then (Status.okStatus, true)
    else
      match chunks with
      | [] =>
          (if flushOk then ⟨ErrorCode.endOfStream, ""⟩
           else ⟨ErrorCode.parserFailure, "Failed to flush."⟩, false)
      | ChunkRead.readError :: _ =>
          (⟨ErrorCode.fileFailure, "Cannot read file " ++ file_name⟩, false)
      | ChunkRead.bytes ok :: rest =>
          if ok then demuxerLoop cancelled file_name flushOk (i + 1) rest
          else (⟨ErrorCode.parserFailure,
                  "Cannot parse media file " ++ file_name⟩, false)

/-- `Demuxer::Run`: run the parse loop; return CANCELLED when the loop was
stopped by the cancellation flag (with the status still OK); on
`END_OF_STREAM` push one EOS sample onto every stream (each `PushSample`
returns OK), which also resets the returned status to OK when there is at
least one stream. -/
def demuxerRun (streams : List (List DemuxSample)) (cancelled : Nat → Bool)
    (file_name : String) (chunks : List ChunkRead) (flushOk : Bool) :
    Status × List (List DemuxSample) :=
  let r := demuxerLoop cancelled file_name flushOk 0 chunks
  if r.2 ∧ r.1.isOk then
    (⟨ErrorCode.cancelled, "Demuxer run cancelled"⟩, streams)
  else if r.1.code = ErrorCode.endOfStream then
    ((if streams = [] then r.1 else Status.okStatus),
      streams.map (fun q => q ++ [DemuxSample.eos]))
  else (r.1, streams)

/-! ## `packager/hls/base/master_playlist.cc`: audio `#EXT-X-MEDIA` tags. -/

/-- The data `BuildAudioTag` reads from an audio `MediaPlaylist`. -/
structure AudioPlaylistInfo where
  file_name : String
  name : String
  language : String
  channels : Nat
  deriving DecidableEq, Repr

/-- `BuildAudioTag` of `master_playlist.cc`: the `Tag` helper emits
`NAME=value` fields separated by commas (the first field after the tag
name gets no comma), quoting where `AddQuotedString` is used; `LANGUAGE`
is omitted when the language is empty, `DEFAULT=YES` and `AUTOSELECT=YES`
only when the corresponding flag is set. -/
def buildAudioTag (base_url group_id : String) (p : AudioPlaylistInfo)
    (is_default is_autoselect : Bool) : String :=
  "#EXT-X-MEDIA:" ++
  "TYPE=AUDIO" ++
  ",URI=\"" ++ base_url ++ p.file_name ++ "\"" ++
  ",GROUP-ID=\"" ++ group_id ++ "\"" ++
  (if p.language = "" then "" else ",LANGUAGE=\"" ++ p.language ++ "\"") ++
  ",NAME=\"" ++ p.name ++ "\"" ++
  (if is_default then ",DEFAULT=YES" else "") ++
  (if is_autoselect then ",AUTOSELECT=YES" else "") ++
  ",CHANNELS=\"" ++ toString p.channels ++ "\"" ++
  "\n"

/-- The per-playlist flag computation of the audio-group loop of
`MasterPlaylist::WriteMasterPlaylist`: `seen` is the `languages` set of
languages already encountered in the group; the first playlist of each
distinct language gets `AUTOSELECT`, and also `DEFAULT` when its language
is non-empty and equals `default_language_`.  Returns the
`(is_default, is_autoselect)` pair for each playlist in order. -/
def audioGroupFlags (default_language : String) :
    List AudioPlaylistInfo → List String → List (Bool × Bool)
  | [], _ => []
  | p :: rest, seen =>
    if p.language ∈ seen then
      (false, false) :: audioGroupFlags default_language rest seen
    else
      ((p.language != "" && p.language == default_language), true) ::
        audioGroupFlags default_language rest (p.language :: seen)

/-- The audio section emitted for one group: one `BuildAudioTag` line per
playlist, with the flags of the group loop. -/
def writeAudioGroup (base_url group_id default_language : String)
    (playlists : List AudioPlaylistInfo) : String :=
  String.join (List.zipWith
    (fun p fl => buildAudioTag base_url group_id p fl.1 fl.2)
    playlists (audioGroupFlags default_language playlists []))

/-- An English audio playlist for the two-language scenario. -/
def audioEn : AudioPlaylistInfo :=
  { file_name := "audio-en.m3u8"
    name := "english"
    language := "en"
    channels := 2 }

/-- A French audio playlist for the two-language scenario. -/
def audioFr : AudioPlaylistInfo :=
  { file_name := "audio-fr.m3u8"
    name := "french"
    language := "fr"
    channels := 2 }

/-! ## Concrete cue-alignment inputs. -/

/-- A non-video stream state holding a full buffer of `kMaxBufferSize`
samples. -/
def cueCapState : CueStreamState :=
  { kind := StreamKind.audio
    time_scale := 10
    samples := List.replicate kMaxBufferSize (CueSample.media 0 0 false)
    cue := none
    next_cue_hint := 100 }

/-- The sample whose arrival overflows the full buffer. -/
def cueCapSample : CueSample := CueSample.media 0 0 false

/-- A fresh audio stream state. -/
def cueRunState : CueStreamState :=
  { kind := StreamKind.audio
    time_scale := 1
    samples := []
    cue := none
    next_cue_hint := 5 }

/-- A promoted sync point at time 2 followed by an audio sample at time 3:
the handler dispatches the cue event and then the sample. -/
def cueRunInputs : List HandlerInput :=
  [HandlerInput.inSync 2 5, HandlerInput.inSample (CueSample.media 3 0 false) 0]

/-! ## Supporting lemmas. -/

theorem natToBeBytes_length (len n : Nat) : (natToBeBytes len n).length = len := by
  induction len generalizing n with
  | zero => rfl
  | succ k ih => simp [natToBeBytes, ih]

theorem beBytesToNat_append_singleton (xs : List Nat) (b : Nat) :
    beBytesToNat (xs ++ [b]) = beBytesToNat xs * 256 + b := by
  induction xs with
  | nil => simp [beBytesToNat]
  | cons x xs ih =>
      have hlen : (xs ++ [b]).length = xs.length + 1 := by simp
      have h2 : 2 ^ (8 * (xs.length + 1)) = 2 ^ (8 * xs.length) * 256 := by
        rw [Nat.mul_add, Nat.pow_add]
      calc beBytesToNat (x :: xs ++ [b])
          = x * 2 ^ (8 * (xs ++ [b]).length) + beBytesToNat (xs ++ [b]) := rfl
        _ = x * 2 ^ (8 * (xs.length + 1)) + (beBytesToNat xs * 256 + b) := by
              rw [hlen, ih]
        _ = (x * 2 ^ (8 * xs.length) + beBytesToNat xs) * 256 + b := by
              rw [h2]; ring

theorem beBytesToNat_natToBeBytes (len n : Nat) :
    beBytesToNat (natToBeBytes len n) = n % 2 ^ (8 * len) := by
  induction len generalizing n with
  | zero => simp [natToBeBytes, beBytesToNat, Nat.mod_one]
  | succ k ih =>
      rw [natToBeBytes, beBytesToNat_append_singleton, ih]
      have h256 : (256 : Nat) = 2 ^ 8 := by norm_num
      have : 2 ^ (8 * (k + 1)) = 2 ^ 8 * 2 ^ (8 * k) := by
        rw [Nat.mul_add, Nat.mul_one, Nat.pow_add, Nat.mul_comm]
      rw [this, h256, Nat.mod_mul]
      ring

theorem serializeSidx_length (s : SegmentIndex) :
    (serializeSidx s).length = s.computeSize := by
  have href : ∀ r, (serializeReference r).length = 12 := by
    intro r
    simp [serializeReference, natToBeBytes_length]
  have hjoin : ((s.references.map serializeReference).flatten).length =
      12 * s.references.length := by
    induction s.references with
    | nil => simp
    | cons r rs ih => simp [href, ih]; ring
  rcases hv : s.boxVersion with _ | k
  · simp [serializeSidx, SegmentIndex.computeSize, hv, natToBeBytes_length,
      hjoin]
    ring
  · have hk : k = 0 := by
      have := hv
      unfold SegmentIndex.boxVersion at this
      split at this <;> omega
    subst hk
    simp [serializeSidx, SegmentIndex.computeSize, hv, natToBeBytes_length,
      hjoin]
    ring

theorem singleSegment_temp_file_fold (s : SingleSegmentSegmenter)
    (segs : List (SegmentIndex × List Nat))
    (h : ∀ seg ∈ segs, seg.1.references ≠ []) :
    (segs.foldl SingleSegmentSegmenter.doFinalizeSegment s).temp_file =
      s.temp_file ++ (segs.map Prod.snd).flatten := by
  induction segs generalizing s with
  | nil => simp
  | cons seg rest ih =>
      have hne : seg.1.references ≠ [] := h seg (by simp)
      have hstep : (s.doFinalizeSegment seg).temp_file = s.temp_file ++ seg.2 := by
        rcases hr : seg.1.references with _ | ⟨r0, rs⟩
        · exact absurd hr hne
        · simp [SingleSegmentSegmenter.doFinalizeSegment, hr]
      rw [List.foldl_cons, ih _ (fun x hx => h x (by simp [hx])), hstep]
      simp

theorem singleSegment_vod_sidx_isSome (s : SingleSegmentSegmenter)
    (segs : List (SegmentIndex × List Nat))
    (h : ∀ seg ∈ segs, seg.1.references ≠ [])
    (hbase : s.vod_sidx.isSome ∨ segs ≠ []) :
    (segs.foldl SingleSegmentSegmenter.doFinalizeSegment s).vod_sidx.isSome := by
  induction segs generalizing s with
  | nil =>
      rcases hbase with hb | hb
      · simpa using hb
      · exact absurd rfl hb
  | cons seg rest ih =>
      have hne : seg.1.references ≠ [] := h seg (by simp)
      rw [List.foldl_cons]
      refine ih _ (fun x hx => h x (by simp [hx])) (Or.inl ?_)
      rcases hr : seg.1.references with _ | ⟨r0, rs⟩
      · exact absurd hr hne
      · simp [SingleSegmentSegmenter.doFinalizeSegment, hr]

theorem singleSegment_ftyp_moov_fold (s : SingleSegmentSegmenter)
    (segs : List (SegmentIndex × List Nat)) :
    (segs.foldl SingleSegmentSegmenter.doFinalizeSegment s).ftyp = s.ftyp ∧
      (segs.foldl SingleSegmentSegmenter.doFinalizeSegment s).moov = s.moov := by
  induction segs generalizing s with
  | nil => exact ⟨rfl, rfl⟩
  | cons seg rest ih =>
      rw [List.foldl_cons]
      have hstep : (s.doFinalizeSegment seg).ftyp = s.ftyp ∧
          (s.doFinalizeSegment seg).moov = s.moov := by
        rcases hr : seg.1.references with _ | ⟨r0, rs⟩ <;>
          simp [SingleSegmentSegmenter.doFinalizeSegment, hr]
      obtain ⟨h1, h2⟩ := ih (s.doFinalizeSegment seg)
      exact ⟨h1.trans hstep.1, h2.trans hstep.2⟩

theorem removeOutOfRange_dropped (limit : Nat) (l : List MpdSegmentInfo) :
    ∃ dropped, l = dropped ++ (removeOutOfRange limit l).1 ∧
      (∀ s ∈ dropped, lastSegmentEndTime s ≤ limit) ∧
      (removeOutOfRange limit l).2 = segmentCount dropped := by
  induction l with
  | nil => exact ⟨[], by simp [removeOutOfRange, segmentCount]⟩
  | cons s rest ih =>
      by_cases h : limit < lastSegmentEndTime s
      · exact ⟨[], by simp [removeOutOfRange, h, segmentCount]⟩
      · obtain ⟨d, hd, hmem, hc⟩ := ih
        refine ⟨s :: d, ?_, ?_, ?_⟩
        · simpa [removeOutOfRange, h] using hd
        · intro x hx
          rcases List.mem_cons.mp hx with hx | hx
          · subst hx; omega
          · exact hmem x hx
        · simp [removeOutOfRange, h, segmentCount] at hc ⊢
          omega

theorem removeOutOfRange_head (limit : Nat) (l : List MpdSegmentInfo)
    (s : MpdSegmentInfo) (t : List MpdSegmentInfo)
    (h : (removeOutOfRange limit l).1 = s :: t) :
    limit < lastSegmentEndTime s := by
  induction l with
  | nil => simp [removeOutOfRange] at h
  | cons a rest ih =>
      by_cases ha : limit < lastSegmentEndTime a
      · rw [removeOutOfRange, if_pos ha] at h
        cases h
        exact ha
      · rw [removeOutOfRange, if_neg ha] at h
        exact ih h

theorem removeOutOfRange_ne_nil (limit : Nat) (l : List MpdSegmentInfo)
    (x : MpdSegmentInfo) (hx : x ∈ l) (hlt : limit < lastSegmentEndTime x) :
    (removeOutOfRange limit l).1 ≠ [] := by
  induction l with
  | nil => simp at hx
  | cons a rest ih =>
      by_cases ha : limit < lastSegmentEndTime a
      · simp [removeOutOfRange, ha]
      · rcases List.mem_cons.mp hx with hx | hx
        · subst hx; exact absurd hlt ha
        · rw [removeOutOfRange, if_neg ha]
          exact ih hx

theorem segChain_tail_start_ge (h : MpdSegmentInfo) (t : List MpdSegmentInfo)
    (hc : List.Chain' segChainStep (h :: t)) :
    ∀ x ∈ t, lastSegmentEndTime h ≤ x.start_time := by
  induction t generalizing h with
  | nil => simp
  | cons b t ih =>
      intro x hx
      have hhb : segChainStep h b := (List.chain'_cons.mp hc).1
      rcases List.mem_cons.mp hx with hx | hx
      · subst hx; exact hhb
      · have hb := ih b (List.chain'_cons.mp hc).2 x hx
        have : b.start_time ≤ lastSegmentEndTime b := by
          unfold lastSegmentEndTime; omega
        unfold segChainStep at hhb
        omega

theorem start_le_unitEndTime (s : MpdSegmentInfo) (j : Nat) :
    s.start_time ≤ unitEndTime s j := by
  unfold unitEndTime; omega

theorem floor_toNat_le {q : ℚ} (hq : 0 ≤ q) : ((q.floor.toNat : ℚ)) ≤ q := by
  have h1 : (0 : ℤ) ≤ q.floor := Int.floor_nonneg.mpr hq
  have h2 : ((q.floor : ℚ)) ≤ q := Int.floor_le q
  have h3 : ((q.floor.toNat : ℤ) : ℚ) = ((q.floor : ℚ)) := by
    rw [Int.toNat_of_nonneg h1]
  calc ((q.floor.toNat : ℚ)) = ((q.floor.toNat : ℤ) : ℚ) := by push_cast; ring
    _ = ((q.floor : ℚ)) := h3
    _ ≤ q := h2

theorem incrementLastRepeat_duration (l : List MpdSegmentInfo)
    (hdur : ∀ s ∈ l, 0 < s.duration) :
    ∀ s ∈ incrementLastRepeat l, 0 < s.duration := by
  induction l with
  | nil => simp [incrementLastRepeat]
  | cons a rest ih =>
      intro s hs
      rcases rest with _ | ⟨b, t⟩
      · have heq : incrementLastRepeat [a] =
            [{ a with repeatCount := a.repeatCount + 1 }] := rfl
        rw [heq] at hs
        have hseq : s = { a with repeatCount := a.repeatCount + 1 } := by
          simpa using hs
        subst hseq
        simpa using hdur a (by simp)
      · have heq : incrementLastRepeat (a :: b :: t) =
            a :: incrementLastRepeat (b :: t) := rfl
        rw [heq] at hs
        rcases List.mem_cons.mp hs with hs | hs
        · rw [hs]; exact hdur a (by simp)
        · exact ih (fun x hx => hdur x (by simp [hx])) s hs

theorem incrementLastRepeat_head_start (a : MpdSegmentInfo)
    (l : List MpdSegmentInfo) :
    ∃ h t, incrementLastRepeat (a :: l) = h :: t ∧
      h.start_time = a.start_time := by
  rcases l with _ | ⟨b, t⟩
  · exact ⟨_, _, rfl, rfl⟩
  · exact ⟨_, _, rfl, rfl⟩

theorem incrementLastRepeat_chain (l : List MpdSegmentInfo)
    (hc : List.Chain' segChainStep l) :
    List.Chain' segChainStep (incrementLastRepeat l) := by
  induction l with
  | nil => simp [incrementLastRepeat]
  | cons a rest ih =>
      rcases rest with _ | ⟨b, t⟩
      · simp [incrementLastRepeat]
      · obtain ⟨hab, hbt⟩ := List.chain'_cons.mp hc
        obtain ⟨h, t2, heq, hstart⟩ := incrementLastRepeat_head_start b t
        have : incrementLastRepeat (a :: b :: t) =
            a :: incrementLastRepeat (b :: t) := rfl
        rw [this, heq, List.chain'_cons]
        refine ⟨?_, by rw [← heq]; exact ih hbt⟩
        unfold segChainStep at hab ⊢
        omega

theorem segmentCount_append (a b : List MpdSegmentInfo) :
    segmentCount (a ++ b) = segmentCount a + segmentCount b := by
  simp [segmentCount]

theorem segmentCount_cons (a : MpdSegmentInfo) (l : List MpdSegmentInfo) :
    segmentCount (a :: l) = a.repeatCount + 1 + segmentCount l := by
  simp [segmentCount]

theorem slideWindowCore_spec (timeshift_limit : Nat)
    (infos : List MpdSegmentInfo)
    (hdur : ∀ s ∈ infos, 0 < s.duration)
    (hchain : List.Chain' segChainStep infos)
    (hlast : ∃ x, infos.getLast? = some x ∧
      timeshift_limit < lastSegmentEndTime x) :
    (∀ s ∈ (slideWindowCore timeshift_limit infos).1, ∀ j, j ≤ s.repeatCount →
      timeshift_limit < unitEndTime s j) ∧
    (slideWindowCore timeshift_limit infos).1 ≠ [] ∧
    (slideWindowCore timeshift_limit infos).1.getLast?.map
        lastSegmentStartTime =
      infos.getLast?.map lastSegmentStartTime ∧
    segmentCount (slideWindowCore timeshift_limit infos).1 ≤
      segmentCount infos ∧
    (slideWindowCore timeshift_limit infos).2 =
      segmentCount infos -
        segmentCount (slideWindowCore timeshift_limit infos).1 := by
  obtain ⟨x, hxlast, hxlt⟩ := hlast
  obtain ⟨dropped, hdec, hdropmem, hcount⟩ :=
    removeOutOfRange_dropped timeshift_limit infos
  have hxmem : x ∈ infos := List.mem_of_mem_getLast? hxlast
  have hkept_ne : (removeOutOfRange timeshift_limit infos).1 ≠ [] :=
    removeOutOfRange_ne_nil timeshift_limit infos x hxmem hxlt
  rcases hkept : (removeOutOfRange timeshift_limit infos).1 with _ | ⟨first, rest⟩
  · exact absurd hkept hkept_ne
  have hfirstlt : timeshift_limit < lastSegmentEndTime first :=
    removeOutOfRange_head _ _ _ _ hkept
  have hinfos : infos = dropped ++ first :: rest := by rw [hdec, hkept]
  have hfirstmem : first ∈ infos := by rw [hinfos]; simp
  have hd : 0 < first.duration := hdur first hfirstmem
  have hchain_kept : List.Chain' segChainStep (first :: rest) := by
    rw [hinfos] at hchain
    exact hchain.right_of_append
  have hrest_unit : ∀ s ∈ rest, ∀ j, timeshift_limit < unitEndTime s j := by
    intro s hs j
    have h1 := segChain_tail_start_ge first rest hchain_kept s hs
    have h2 := start_le_unitEndTime s j
    omega
  have hgetLast : infos.getLast? = (first :: rest).getLast? := by
    rw [hinfos]
    exact (List.getLast?_append_cons dropped first rest)
  have hcounts : segmentCount infos =
      segmentCount dropped + (first.repeatCount + 1) + segmentCount rest := by
    rw [hinfos, segmentCount_append, segmentCount_cons]
    omega
  set ri := searchTimedOutRepeatIndex timeshift_limit first with hridef
  have hcore : slideWindowCore timeshift_limit infos =
      (if ri = 0 then
        (first :: rest, (removeOutOfRange timeshift_limit infos).2)
       else
        ({ first with
            start_time := first.start_time + first.duration * ri
            repeatCount := first.repeatCount - ri } :: rest,
          (removeOutOfRange timeshift_limit infos).2 + ri)) := by
    unfold slideWindowCore
    simp only [hkept]
  by_cases hri : ri = 0
  · rw [hcore, if_pos hri]
    refine ⟨?_, by simp, ?_, ?_, ?_⟩
    · intro s hs j hj
      rcases List.mem_cons.mp hs with hs | hs
      · subst hs
        by_cases hls : timeshift_limit < s.start_time
        · have := start_le_unitEndTime s j
          omega
        · have h0 : (timeshift_limit - s.start_time) / s.duration = 0 := by
            rw [hridef] at hri
            unfold searchTimedOutRepeatIndex at hri
            rw [if_neg hls] at hri
            exact hri
          have hsd : 0 < s.duration := hdur s hfirstmem
          have hlt : timeshift_limit - s.start_time < s.duration :=
            (Nat.div_eq_zero_iff hsd).mp h0
          have hmul : s.duration * 1 ≤ s.duration * (j + 1) :=
            Nat.mul_le_mul_left _ (by omega)
          unfold unitEndTime
          omega
      · exact hrest_unit s hs j
    · rw [hgetLast]
    · rw [segmentCount_cons]
      omega
    · rw [segmentCount_cons]
      omega
  · have hsle : ¬ timeshift_limit < first.start_time := by
      intro hcon
      rw [hridef] at hri
      unfold searchTimedOutRepeatIndex at hri
      rw [if_pos hcon] at hri
      exact hri rfl
    have hrieq : ri = (timeshift_limit - first.start_time) / first.duration := by
      rw [hridef]
      unfold searchTimedOutRepeatIndex
      rw [if_neg hsle]
    have hri_le : ri ≤ first.repeatCount := by
      rw [hrieq]
      have h2 : timeshift_limit - first.start_time <
          (first.repeatCount + 1) * first.duration := by
        unfold lastSegmentEndTime at hfirstlt
        rw [Nat.mul_comm]
        omega
      have h3 := (Nat.div_lt_iff_lt_mul hd).mpr h2
      omega
    have hlow : timeshift_limit <
        first.start_time + first.duration * ri + first.duration := by
      rw [hrieq]
      have h4 := Nat.lt_div_mul_add (a := timeshift_limit - first.start_time) hd
      rw [Nat.mul_comm ((timeshift_limit - first.start_time) / first.duration)
        first.duration] at h4
      omega
    have hsplit : first.duration * (first.repeatCount - ri) +
        first.duration * ri = first.duration * first.repeatCount := by
      rw [← Nat.mul_add, Nat.sub_add_cancel hri_le]
    rw [hcore, if_neg hri]
    refine ⟨?_, by simp, ?_, ?_, ?_⟩
    · intro s hs j hj
      rcases List.mem_cons.mp hs with hs | hs
      · subst hs
        simp only [unitEndTime]
        have hmul : first.duration * 1 ≤ first.duration * (j + 1) :=
          Nat.mul_le_mul_left _ (by omega)
        omega
      · exact hrest_unit s hs j
    · rcases rest with _ | ⟨b, t⟩
      · have hl1 : infos.getLast? = some first := by rw [hgetLast]; rfl
        rw [hl1]
        have heq2 : lastSegmentStartTime
            { first with
                start_time := first.start_time + first.duration * ri
                repeatCount := first.repeatCount - ri } =
            lastSegmentStartTime first := by
          simp only [lastSegmentStartTime]
          omega
        simp [heq2]
      · rw [hgetLast, List.getLast?_cons_cons, List.getLast?_cons_cons]
    · rw [segmentCount_cons]
      simp only []
      omega
    · rw [segmentCount_cons]
      simp only []
      omega

theorem slideWindow_spec (p : Representation)
    (hne : p.segment_infos ≠ [])
    (hdur : ∀ s ∈ p.segment_infos, 0 < s.duration)
    (hchain : List.Chain' segChainStep p.segment_infos)
    (hdepth : 0 < p.time_shift_buffer_depth) :
    (∀ s ∈ p.slideWindow.segment_infos, ∀ j, j ≤ s.repeatCount →
      ((latestSegmentStartTime p.segment_infos : ℚ) -
        p.time_shift_buffer_depth * (p.time_scale : ℚ) ≤
          (unitEndTime s j : ℚ))) ∧
    p.slideWindow.segment_infos ≠ [] ∧
    p.slideWindow.segment_infos.getLast?.map lastSegmentStartTime =
      p.segment_infos.getLast?.map lastSegmentStartTime ∧
    segmentCount p.slideWindow.segment_infos ≤ segmentCount p.segment_infos ∧
    p.slideWindow.start_number =
      p.start_number + (segmentCount p.segment_infos -
        segmentCount p.slideWindow.segment_infos) := by
  have hd0 : ¬ p.time_shift_buffer_depth ≤ 0 := not_le.mpr hdepth
  have hq0 : (0 : ℚ) ≤ p.time_shift_buffer_depth * (p.time_scale : ℚ) :=
    mul_nonneg hdepth.le (by positivity)
  have hticks_le : ((p.depthTicks : ℚ)) ≤
      p.time_shift_buffer_depth * (p.time_scale : ℚ) := floor_toNat_le hq0
  by_cases hcase : latestSegmentStartTime p.segment_infos ≤ p.depthTicks
  · have hsw : p.slideWindow = p := by
      unfold Representation.slideWindow
      rw [if_neg hd0]
      simp only []
      rw [if_pos hcase]
    rw [hsw]
    refine ⟨?_, hne, rfl, le_refl _, by omega⟩
    intro s hs j hj
    have h1 : ((latestSegmentStartTime p.segment_infos : ℚ)) ≤
        ((p.depthTicks : ℚ)) := by exact_mod_cast hcase
    have h2 : (0 : ℚ) ≤ ((unitEndTime s j : ℚ)) := by positivity
    linarith
  · push_neg at hcase
    have hlastx : ∃ x, p.segment_infos.getLast? = some x ∧
        latestSegmentStartTime p.segment_infos - p.depthTicks <
          lastSegmentEndTime x := by
      rcases hx : p.segment_infos.getLast? with _ | x
      · rcases hl : p.segment_infos with _ | ⟨a, l⟩
        · exact absurd hl hne
        · rw [hl] at hx
          simp [List.getLast?_eq_getLast] at hx
      · refine ⟨x, rfl, ?_⟩
        have hlatest : latestSegmentStartTime p.segment_infos =
            lastSegmentStartTime x := by
          unfold latestSegmentStartTime
          rw [hx]
        have hdx : 0 < x.duration := hdur x (List.mem_of_mem_getLast? hx)
        have hmul : x.duration * (x.repeatCount + 1) =
            x.duration * x.repeatCount + x.duration := by ring
        unfold lastSegmentStartTime at hlatest
        unfold lastSegmentEndTime
        omega
    obtain ⟨hunitall, hne2, hlast2, hcle, hsn⟩ :=
      slideWindowCore_spec
        (latestSegmentStartTime p.segment_infos - p.depthTicks)
        p.segment_infos hdur hchain hlastx
    have hsw : p.slideWindow =
        { p with
          segment_infos := (slideWindowCore
            (latestSegmentStartTime p.segment_infos - p.depthTicks)
            p.segment_infos).1
          start_number := p.start_number + (slideWindowCore
            (latestSegmentStartTime p.segment_infos - p.depthTicks)
            p.segment_infos).2 } := by
      unfold Representation.slideWindow
      rw [if_neg hd0]
      simp only []
      rw [if_neg (not_le.mpr hcase)]
    rw [hsw]
    refine ⟨?_, hne2, hlast2, hcle, by simp only []; omega⟩
    intro s hs j hj
    have h1 := hunitall s hs j hj
    have h2 : ((latestSegmentStartTime p.segment_infos - p.depthTicks : ℕ) : ℚ)
        = (latestSegmentStartTime p.segment_infos : ℚ) - (p.depthTicks : ℚ) := by
      rw [Nat.cast_sub hcase.le]
    have h3 : ((latestSegmentStartTime p.segment_infos - p.depthTicks : ℕ) : ℚ)
        ≤ (unitEndTime s j : ℚ) := by exact_mod_cast h1.le
    linarith

theorem latestSegmentStartTime_eq_getD (l : List MpdSegmentInfo) :
    latestSegmentStartTime l = (l.getLast?.map lastSegmentStartTime).getD 0 := by
  unfold latestSegmentStartTime
  cases l.getLast? <;> rfl

theorem incrementLastRepeat_getLast (l : List MpdSegmentInfo)
    (aLast : MpdSegmentInfo) (h : l.getLast? = some aLast) :
    (incrementLastRepeat l).getLast? =
      some { aLast with repeatCount := aLast.repeatCount + 1 } := by
  induction l with
  | nil => simp at h
  | cons a rest ih =>
      rcases rest with _ | ⟨b, t⟩
      · simp at h
        subst h
        rfl
      · have heq : incrementLastRepeat (a :: b :: t) =
            a :: incrementLastRepeat (b :: t) := rfl
        rw [List.getLast?_cons_cons] at h
        obtain ⟨h0, t0, heq0, _⟩ := incrementLastRepeat_head_start b t
        rw [heq, heq0, List.getLast?_cons_cons, ← heq0, ih h]

/-- C2: For a dynamic MPD representation with `time_shift_buffer_depth`
D > 0, after an `AddNewSegment` call (on a well-formed, in-order segment
list with positive durations) (i) the segment list contains no segment whose
end time is below `latest_segment_start - D*timescale`, (ii) the latest
(just-added) segment is retained: the latest segment start time is the new
segment's start time, and (iii) `start_number` has been incremented by
exactly the number of segments dropped by the window. -/
theorem mpd_sliding_window_spec (r : Representation)
    (start_time duration size : Nat)
    (hdepth : 0 < r.time_shift_buffer_depth)
    (hdur : ∀ s ∈ r.segment_infos, 0 < s.duration)
    (hchain : List.Chain' segChainStep r.segment_infos)
    (hnewdur : 0 < duration)
    (horder : ∀ x, r.segment_infos.getLast? = some x →
      lastSegmentEndTime x ≤ start_time) :
    (∀ s ∈ (r.addNewSegment start_time duration size).segment_infos,
      ∀ j, j ≤ s.repeatCount →
      ((start_time : ℚ) - r.time_shift_buffer_depth * (r.time_scale : ℚ) ≤
        (unitEndTime s j : ℚ))) ∧
    (r.addNewSegment start_time duration size).segment_infos ≠ [] ∧
    latestSegmentStartTime
        (r.addNewSegment start_time duration size).segment_infos =
      start_time ∧
    (r.addNewSegment start_time duration size).start_number =
      r.start_number +
        (segmentCount (r.insertNewSegment start_time duration).segment_infos -
          segmentCount
            (r.addNewSegment start_time duration size).segment_infos) ∧
    segmentCount (r.addNewSegment start_time duration size).segment_infos ≤
      segmentCount (r.insertNewSegment start_time duration).segment_infos := by
  have hnz : ¬ (start_time = 0 ∧ duration = 0) := fun h => by omega
  have hadd : r.addNewSegment start_time duration size =
      (r.insertNewSegment start_time duration).slideWindow := by
    unfold Representation.addNewSegment
    rw [if_neg hnz]
  have hfdepth : (r.insertNewSegment start_time duration).time_shift_buffer_depth
      = r.time_shift_buffer_depth := by
    unfold Representation.insertNewSegment
    split <;> rfl
  have hfscale : (r.insertNewSegment start_time duration).time_scale =
      r.time_scale := by
    unfold Representation.insertNewSegment
    split <;> rfl
  have hfsn : (r.insertNewSegment start_time duration).start_number =
      r.start_number := by
    unfold Representation.insertNewSegment
    split <;> rfl
  have hpre_ne : (r.insertNewSegment start_time duration).segment_infos ≠ [] ∧
      (∀ s ∈ (r.insertNewSegment start_time duration).segment_infos,
        0 < s.duration) ∧
      List.Chain' segChainStep
        (r.insertNewSegment start_time duration).segment_infos ∧
      latestSegmentStartTime
        (r.insertNewSegment start_time duration).segment_infos = start_time := by
    by_cases hc : r.isContiguous start_time duration
    · obtain ⟨prev, hprev, hpe, hpd⟩ : ∃ prev,
          r.segment_infos.getLast? = some prev ∧
          lastSegmentEndTime prev = start_time ∧
          prev.duration = duration := by
        unfold Representation.isContiguous at hc
        rcases hp : r.segment_infos.getLast? with _ | prev
        · rw [hp] at hc; simp at hc
        · rw [hp] at hc
          simp at hc
          exact ⟨prev, rfl, hc.1, hc.2⟩
      have hins : (r.insertNewSegment start_time duration).segment_infos =
          incrementLastRepeat r.segment_infos := by
        unfold Representation.insertNewSegment
        rw [if_pos hc]
      have hgl := incrementLastRepeat_getLast r.segment_infos prev hprev
      refine ⟨?_, ?_, ?_, ?_⟩
      · rw [hins]
        intro hnil
        rw [hnil] at hgl
        simp at hgl
      · rw [hins]
        exact incrementLastRepeat_duration r.segment_infos hdur
      · rw [hins]
        exact incrementLastRepeat_chain r.segment_infos hchain
      · rw [hins, latestSegmentStartTime_eq_getD, hgl]
        show lastSegmentStartTime
          { prev with repeatCount := prev.repeatCount + 1 } = start_time
        unfold lastSegmentStartTime
        unfold lastSegmentEndTime at hpe
        simp only []
        omega
    · have hins : (r.insertNewSegment start_time duration).segment_infos =
          r.segment_infos ++ [⟨start_time, duration, 0⟩] := by
        unfold Representation.insertNewSegment
        rw [if_neg hc]
      refine ⟨?_, ?_, ?_, ?_⟩
      · rw [hins]; simp
      · rw [hins]
        intro s hs
        rcases List.mem_append.mp hs with hs | hs
        · exact hdur s hs
        · simp at hs
          subst hs
          exact hnewdur
      · rw [hins]
        refine List.chain'_append.mpr ⟨hchain, by simp, ?_⟩
        intro x hx y hy
        simp at hy
        subst hy
        unfold segChainStep
        simp only []
        exact horder x hx
      · rw [hins, latestSegmentStartTime_eq_getD,
          List.getLast?_append_cons]
        simp [lastSegmentStartTime]
  obtain ⟨hne1, hdur1, hchain1, hlatest1⟩ := hpre_ne
  obtain ⟨hA, hB, hC, hD, hE⟩ :=
    slideWindow_spec (r.insertNewSegment start_time duration) hne1 hdur1
      hchain1 (by rw [hfdepth]; exact hdepth)
  rw [hfdepth, hfscale, hlatest1] at hA
  rw [hadd]
  refine ⟨hA, hB, ?_, ?_, hD⟩
  · rw [latestSegmentStartTime_eq_getD, hC, ← latestSegmentStartTime_eq_getD]
    exact hlatest1
  · rw [hE, hfsn]

/-- Witness for C2: a representation holding one 10-tick segment at 0 with
depth 5 s and timescale 1, receiving the contiguous segment (10, 10). -/
theorem mpd_sliding_window_spec_witness :
    0 < sampleRepresentation.time_shift_buffer_depth ∧
    (∀ s ∈ sampleRepresentation.segment_infos, 0 < s.duration) ∧
    List.Chain' segChainStep sampleRepresentation.segment_infos ∧
    0 < 10 ∧
    (∀ x, sampleRepresentation.segment_infos.getLast? = some x →
      lastSegmentEndTime x ≤ 10) ∧
    ((∀ s ∈ (sampleRepresentation.addNewSegment 10 10 100).segment_infos,
      ∀ j, j ≤ s.repeatCount →
      ((10 : ℚ) - sampleRepresentation.time_shift_buffer_depth *
          (sampleRepresentation.time_scale : ℚ) ≤ (unitEndTime s j : ℚ))) ∧
    (sampleRepresentation.addNewSegment 10 10 100).segment_infos ≠ [] ∧
    latestSegmentStartTime
        (sampleRepresentation.addNewSegment 10 10 100).segment_infos = 10 ∧
    (sampleRepresentation.addNewSegment 10 10 100).start_number =
      sampleRepresentation.start_number +
        (segmentCount (sampleRepresentation.insertNewSegment 10 10).segment_infos -
          segmentCount
            (sampleRepresentation.addNewSegment 10 10 100).segment_infos) ∧
    segmentCount (sampleRepresentation.addNewSegment 10 10 100).segment_infos ≤
      segmentCount (sampleRepresentation.insertNewSegment 10 10).segment_infos) :=
  ⟨by norm_num [sampleRepresentation],
    by intro s hs; simp [sampleRepresentation] at hs; subst hs; norm_num,
    by simp [sampleRepresentation],
    by norm_num,
    by
      intro x hx
      simp [sampleRepresentation] at hx
      subst hx
      decide,
    mpd_sliding_window_spec sampleRepresentation 10 10 100
      (by norm_num [sampleRepresentation])
      (by intro s hs; simp [sampleRepresentation] at hs; subst hs; norm_num)
      (by simp [sampleRepresentation])
      (by norm_num)
      (by
        intro x hx
        simp [sampleRepresentation] at hx
        subst hx
        decide)⟩

theorem hlsScanSplit_decomposition (limit : ℚ) (l : List HlsEntry) :
    (hlsScanSplit limit l).1 ++ (hlsScanSplit limit l).2 = l := by
  induction l with
  | nil => rfl
  | cons e rest ih =>
      rcases e with ⟨f, s, d⟩ | ⟨m, u, k, i, kf, kv⟩ | _
      · rw [hlsScanSplit]
        by_cases h : limit < s + d
        · rw [if_pos h]
          rfl
        · rw [if_neg h]
          simpa using ih
      · rw [hlsScanSplit]
        simpa using ih
      · rw [hlsScanSplit]
        simpa using ih

theorem hlsSlideLoop_remaining (limit : ℚ) (l : List HlsEntry)
    (keys : List HlsEntry) (prevKey : Bool) (removed disc : Nat) :
    (hlsSlideLoop limit l keys prevKey removed disc).remaining =
      (hlsScanSplit limit l).2 := by
  induction l generalizing keys prevKey removed disc with
  | nil => rfl
  | cons e rest ih =>
      rcases e with ⟨f, s, d⟩ | ⟨m, u, k, i, kf, kv⟩ | _
      · rw [hlsSlideLoop, hlsScanSplit]
        by_cases h : limit < s + d
        · rw [if_pos h, if_pos h]
        · rw [if_neg h, if_neg h]
          simpa using ih _ _ _ _
      · rw [hlsSlideLoop, hlsScanSplit]
        simpa using ih _ _ _ _
      · rw [hlsSlideLoop, hlsScanSplit]
        simpa using ih _ _ _ _

theorem hlsSlideLoop_removed (limit : ℚ) (l : List HlsEntry)
    (keys : List HlsEntry) (prevKey : Bool) (removed disc : Nat) :
    (hlsSlideLoop limit l keys prevKey removed disc).removed =
      removed + (filterExtInf (hlsScanSplit limit l).1).length := by
  induction l generalizing keys prevKey removed disc with
  | nil => simp [hlsSlideLoop, hlsScanSplit, filterExtInf]
  | cons e rest ih =>
      rcases e with ⟨f, s, d⟩ | ⟨m, u, k, i, kf, kv⟩ | _
      · rw [hlsSlideLoop, hlsScanSplit]
        by_cases h : limit < s + d
        · rw [if_pos h, if_pos h]
          simp [filterExtInf]
        · rw [if_neg h, if_neg h]
          rw [ih]
          simp [filterExtInf, HlsEntry.isSegmentEntry]
          omega
      · rw [hlsSlideLoop, hlsScanSplit]
        rw [ih]
        simp [filterExtInf, HlsEntry.isSegmentEntry]
      · rw [hlsSlideLoop, hlsScanSplit]
        rw [ih]
        simp [filterExtInf, HlsEntry.isSegmentEntry]

theorem hlsSlideLoop_kept_keys (limit : ℚ) (l : List HlsEntry)
    (keys : List HlsEntry) (prevKey : Bool) (removed disc : Nat) :
    (hlsSlideLoop limit l keys prevKey removed disc).kept_keys =
      keptKeysSpec (hlsScanSplit limit l).1 keys prevKey := by
  induction l generalizing keys prevKey removed disc with
  | nil => rfl
  | cons e rest ih =>
      rcases e with ⟨f, s, d⟩ | ⟨m, u, k, i, kf, kv⟩ | _
      · rw [hlsSlideLoop, hlsScanSplit]
        by_cases h : limit < s + d
        · rw [if_pos h, if_pos h]
          rfl
        · rw [if_neg h, if_neg h]
          rw [ih]
          rfl
      · rw [hlsSlideLoop, hlsScanSplit]
        rw [ih]
        rfl
      · rw [hlsSlideLoop, hlsScanSplit]
        rw [ih]
        rfl

theorem filterExtInf_scanSplit (limit : ℚ) (l : List HlsEntry) :
    filterExtInf (hlsScanSplit limit l).1 =
      (filterExtInf l).takeWhile (fun e => decide (e.entryEnd ≤ limit)) ∧
    filterExtInf (hlsScanSplit limit l).2 =
      (filterExtInf l).dropWhile (fun e => decide (e.entryEnd ≤ limit)) := by
  induction l with
  | nil => simp [hlsScanSplit, filterExtInf]
  | cons e rest ih =>
      rcases e with ⟨f, s, d⟩ | ⟨m, u, k, i, kf, kv⟩ | _
      · have hfe : filterExtInf (HlsEntry.extInf f s d :: rest) =
            HlsEntry.extInf f s d :: filterExtInf rest := by
          simp [filterExtInf, HlsEntry.isSegmentEntry]
        rw [hlsScanSplit]
        by_cases h : limit < s + d
        · have hp : (fun e => decide (HlsEntry.entryEnd e ≤ limit))
              (HlsEntry.extInf f s d) = false := by
            simp only [HlsEntry.entryEnd, decide_eq_false_iff_not]
            linarith
          rw [if_pos h]
          refine ⟨?_, ?_⟩
          · rw [hfe, List.takeWhile_cons_of_neg (by simp [hp])]
            simp [filterExtInf]
          · rw [hfe, List.dropWhile_cons_of_neg (by simp [hp])]
        · have hp : (fun e => decide (HlsEntry.entryEnd e ≤ limit))
              (HlsEntry.extInf f s d) = true := by
            simp only [HlsEntry.entryEnd, decide_eq_true_eq]
            linarith [not_lt.mp h]
          rw [if_neg h]
          refine ⟨?_, ?_⟩
          · show filterExtInf (HlsEntry.extInf f s d ::
              (hlsScanSplit limit rest).1) = _
            rw [show filterExtInf (HlsEntry.extInf f s d ::
                (hlsScanSplit limit rest).1) =
              HlsEntry.extInf f s d :: filterExtInf (hlsScanSplit limit rest).1
              from by simp [filterExtInf, HlsEntry.isSegmentEntry]]
            rw [hfe, List.takeWhile_cons_of_pos
              (p := fun e : HlsEntry => decide (e.entryEnd ≤ limit)) hp, ih.1]
          · show filterExtInf (hlsScanSplit limit rest).2 = _
            rw [hfe, List.dropWhile_cons_of_pos
              (p := fun e : HlsEntry => decide (e.entryEnd ≤ limit)) hp, ih.2]
      · have hfe : filterExtInf (HlsEntry.extKey m u k i kf kv :: rest) =
            filterExtInf rest := by
          simp [filterExtInf, HlsEntry.isSegmentEntry]
        rw [hlsScanSplit]
        refine ⟨?_, ?_⟩
        · show filterExtInf (HlsEntry.extKey m u k i kf kv ::
            (hlsScanSplit limit rest).1) = _
          rw [show filterExtInf (HlsEntry.extKey m u k i kf kv ::
              (hlsScanSplit limit rest).1) =
            filterExtInf (hlsScanSplit limit rest).1 from by
              simp [filterExtInf, HlsEntry.isSegmentEntry]]
          rw [hfe, ih.1]
        · show filterExtInf (hlsScanSplit limit rest).2 = _
          rw [hfe, ih.2]
      · have hfe : filterExtInf (HlsEntry.extDiscontinuity :: rest) =
            filterExtInf rest := by
          simp [filterExtInf, HlsEntry.isSegmentEntry]
        rw [hlsScanSplit]
        refine ⟨?_, ?_⟩
        · show filterExtInf (HlsEntry.extDiscontinuity ::
            (hlsScanSplit limit rest).1) = _
          rw [show filterExtInf (HlsEntry.extDiscontinuity ::
              (hlsScanSplit limit rest).1) =
            filterExtInf (hlsScanSplit limit rest).1 from by
              simp [filterExtInf, HlsEntry.isSegmentEntry]]
          rw [hfe, ih.1]
        · show filterExtInf (hlsScanSplit limit rest).2 = _
          rw [hfe, ih.2]

theorem takeWhile_append_singleton_neg {α : Type} (P : α → Bool)
    (l : List α) (e : α) (h : P e = false) :
    (l ++ [e]).takeWhile P = l.takeWhile P := by
  induction l with
  | nil =>
      simp only [List.nil_append, List.takeWhile_nil]
      rw [List.takeWhile_cons_of_neg (by simp [h])]
  | cons a l ih =>
      by_cases ha : P a = true
      · rw [List.cons_append, List.takeWhile_cons_of_pos ha,
          List.takeWhile_cons_of_pos ha, ih]
      · rw [List.cons_append, List.takeWhile_cons_of_neg (by simp_all),
          List.takeWhile_cons_of_neg (by simp_all)]

theorem lastKeyRun_append_key (p : List HlsEntry) (e : HlsEntry)
    (h : e.isKeyEntry = true) :
    lastKeyRun (p ++ [e]) = lastKeyRun p ++ [e] := by
  unfold lastKeyRun
  rw [List.reverse_append, List.reverse_singleton, List.singleton_append,
    List.takeWhile_cons_of_pos h, List.reverse_cons]

theorem lastKeyRun_append_nonkey (p : List HlsEntry) (e : HlsEntry)
    (h : e.isKeyEntry = false) :
    lastKeyRun (p ++ [e]) = [] := by
  unfold lastKeyRun
  rw [List.reverse_append, List.reverse_singleton, List.singleton_append,
    List.takeWhile_cons_of_neg (by simp [h]), List.reverse_nil]

theorem prevKeyAfter_append_singleton (p : List HlsEntry) (e : HlsEntry)
    (pk : Bool) : prevKeyAfter (p ++ [e]) pk = e.isKeyEntry := by
  induction p generalizing pk with
  | nil => rfl
  | cons a rest ih =>
      rw [List.cons_append]
      show prevKeyAfter (rest ++ [e]) a.isKeyEntry = e.isKeyEntry
      exact ih _

theorem keptKeysSpec_step (e : HlsEntry) (rest : List HlsEntry)
    (keys : List HlsEntry) (pk : Bool) :
    keptKeysSpec (e :: rest) keys pk =
      (if e.isKeyEntry then
        keptKeysSpec rest ((if pk then keys else []) ++ [e]) true
       else keptKeysSpec rest keys false) := by
  rcases e with ⟨f, s, d⟩ | ⟨m, u, k, i, kf, kv⟩ | _ <;>
    simp [keptKeysSpec, HlsEntry.isKeyEntry]

theorem keptKeysSpec_snoc_key (p : List HlsEntry) (e : HlsEntry)
    (h : e.isKeyEntry = true) :
    ∀ keys pk, keptKeysSpec (p ++ [e]) keys pk =
      (if prevKeyAfter p pk then keptKeysSpec p keys pk else []) ++ [e] := by
  induction p with
  | nil =>
      intro keys pk
      rw [List.nil_append, keptKeysSpec_step, if_pos h]
      show (if pk then keys else []) ++ [e] = _
      rfl
  | cons a rest ih =>
      intro keys pk
      have hpka : prevKeyAfter (a :: rest) pk =
          prevKeyAfter rest a.isKeyEntry := rfl
      rw [List.cons_append, keptKeysSpec_step, keptKeysSpec_step, hpka]
      by_cases ha : a.isKeyEntry = true
      · simp only [ha, if_true]
        exact ih _ _
      · have ha2 : a.isKeyEntry = false := by simpa using ha
        simp only [ha2, Bool.false_eq_true, if_false]
        exact ih _ _

theorem keptKeysSpec_snoc_nonkey (p : List HlsEntry) (e : HlsEntry)
    (h : e.isKeyEntry = false) :
    ∀ keys pk, keptKeysSpec (p ++ [e]) keys pk = keptKeysSpec p keys pk := by
  induction p with
  | nil =>
      intro keys pk
      rw [List.nil_append, keptKeysSpec_step, if_neg (by simp [h])]
      rfl
  | cons a rest ih =>
      intro keys pk
      rw [List.cons_append, keptKeysSpec_step, keptKeysSpec_step]
      by_cases ha : a.isKeyEntry = true
      · simp only [ha, if_true]
        exact ih _ _
      · have ha2 : a.isKeyEntry = false := by simpa using ha
        simp only [ha2, Bool.false_eq_true, if_false]
        exact ih _ _

theorem keptKeysSpec_suffix (p : List HlsEntry) :
    ∀ keys pk, lastKeyRun p <:+ keptKeysSpec p keys pk ∧
      (prevKeyAfter p pk = false → lastKeyRun p = []) := by
  induction p using List.reverseRecOn with
  | nil =>
      intro keys pk
      exact ⟨⟨keys, by simp [lastKeyRun, keptKeysSpec]⟩,
        fun _ => by simp [lastKeyRun]⟩
  | append_singleton p e ih =>
      intro keys pk
      by_cases he : e.isKeyEntry = true
      · rw [lastKeyRun_append_key p e he, keptKeysSpec_snoc_key p e he,
          prevKeyAfter_append_singleton]
        refine ⟨?_, fun hc => by rw [he] at hc; cases hc⟩
        by_cases hpka : prevKeyAfter p pk = true
        · rw [if_pos hpka]
          obtain ⟨t, ht⟩ := (ih keys pk).1
          exact ⟨t, by rw [← List.append_assoc, ht]⟩
        · rw [if_neg hpka]
          rw [(ih keys pk).2 (by simpa using hpka)]
      · rw [lastKeyRun_append_nonkey p e (by simpa using he)]
        exact ⟨List.nil_suffix, fun _ => rfl⟩

theorem keptKeysSpec_all_keys (p : List HlsEntry) :
    ∀ keys pk, (∀ x ∈ keys, x.isKeyEntry = true) →
      ∀ x ∈ keptKeysSpec p keys pk, x.isKeyEntry = true := by
  induction p with
  | nil =>
      intro keys pk hk x hx
      exact hk x hx
  | cons a rest ih =>
      intro keys pk hk x hx
      rw [keptKeysSpec_step] at hx
      by_cases ha : a.isKeyEntry = true
      · rw [if_pos ha] at hx
        refine ih _ _ ?_ x hx
        intro y hy
        rcases List.mem_append.mp hy with hy | hy
        · by_cases hpk : pk = true
          · rw [if_pos hpk] at hy
            exact hk y hy
          · rw [if_neg hpk] at hy
            cases hy
        · rw [List.mem_singleton.mp hy]
          exact ha
      · rw [if_neg (by simp [ha])] at hx
        exact ih _ _ hk x hx

theorem filterExtInf_all_keys (l : List HlsEntry)
    (h : ∀ x ∈ l, x.isKeyEntry = true) : filterExtInf l = [] := by
  induction l with
  | nil => rfl
  | cons a rest ih =>
      have ha := h a (by simp)
      rcases a with _ | _ | _ <;> simp [HlsEntry.isKeyEntry] at ha
      simp only [filterExtInf, List.filter_cons]
      rw [show (HlsEntry.extKey _ _ _ _ _ _).isSegmentEntry = false from rfl]
      simpa [filterExtInf] using ih (fun x hx => h x (by simp [hx]))

theorem filterExtInf_append (a b : List HlsEntry) :
    filterExtInf (a ++ b) = filterExtInf a ++ filterExtInf b := by
  simp [filterExtInf]

theorem dropWhile_takeWhile_all_neg {α : Type} (P : α → Bool) (l : List α)
    (h : ∀ x ∈ l, P x = false) : l.dropWhile P = l ∧ l.takeWhile P = [] := by
  cases l with
  | nil => simp
  | cons a rest =>
      have ha := h a (by simp)
      exact ⟨List.dropWhile_cons_of_neg (by simp [ha]),
        List.takeWhile_cons_of_neg (by simp [ha])⟩

theorem lastKeyRun_suffix (l : List HlsEntry) : lastKeyRun l <:+ l := by
  have h := List.takeWhile_prefix (l := l.reverse) HlsEntry.isKeyEntry
  have h2 : (List.takeWhile HlsEntry.isKeyEntry l.reverse).reverse.reverse <+:
      l.reverse := by simpa using h
  have h3 := List.reverse_prefix.mp h2
  simpa [lastKeyRun] using h3

theorem hlsLatest_append_extInf (l : List HlsEntry) (f : String) (s d : ℚ) :
    hlsLatestSegmentStartTime (l ++ [HlsEntry.extInf f s d]) = s := by
  unfold hlsLatestSegmentStartTime
  rw [List.reverse_append, List.reverse_singleton, List.singleton_append]
  rfl

/-- C5: For a live HLS media playlist with positive
`time_shift_buffer_depth`, adding a segment (a) removes exactly the leading
`EXTINF` entries whose `start + duration` is at most
`latest_segment_start - time_shift_buffer_depth` (expressed as a
`dropWhile`/`takeWhile` of the `EXTINF` subsequence), (b) increases the
media sequence number by the number of removed segments, and (c) the
contiguous `EXT-X-KEY` run immediately preceding the first retained entry is
retained right before it. -/
theorem hls_live_slide_window_spec (p : MediaPlaylist) (file_name : String)
    (start_time duration size : Nat)
    (htype : p.type = MediaPlaylistType.live)
    (hdepth : 0 < p.time_shift_buffer_depth)
    (hscale : 0 < p.time_scale)
    (hdur : 0 < duration)
    (hwf : ∀ fn s d, HlsEntry.extInf fn s d ∈ p.entries → 0 ≤ s ∧ 0 < d) :
    (let p1 := p.appendSegmentEntry file_name start_time duration size
     let limit := hlsLatestSegmentStartTime p1.entries -
       p.time_shift_buffer_depth
     let post := p.addSegment file_name start_time duration size
     hlsLatestSegmentStartTime p1.entries =
        (start_time : ℚ) / (p.time_scale : ℚ) ∧
     filterExtInf post.entries =
        (filterExtInf p1.entries).dropWhile
          (fun e => decide (e.entryEnd ≤ limit)) ∧
     post.media_sequence_number = p.media_sequence_number +
        ((filterExtInf p1.entries).takeWhile
          (fun e => decide (e.entryEnd ≤ limit))).length ∧
     ∃ pre2, post.entries =
        pre2 ++ lastKeyRun (hlsScanSplit limit p1.entries).1 ++
          (hlsScanSplit limit p1.entries).2) := by
  simp only []
  have hp1e : (p.appendSegmentEntry file_name start_time duration size).entries
      = p.entries ++ [HlsEntry.extInf file_name
          ((start_time : ℚ) / (p.time_scale : ℚ))
          ((duration : ℚ) / (p.time_scale : ℚ))] := rfl
  set p1 := p.appendSegmentEntry file_name start_time duration size with hp1def
  have hlatest : hlsLatestSegmentStartTime p1.entries =
      (start_time : ℚ) / (p.time_scale : ℚ) := by
    rw [hp1e, hlsLatest_append_extInf]
  set limit := hlsLatestSegmentStartTime p1.entries -
    p.time_shift_buffer_depth with hlimdef
  have hscale0 : ¬ p.time_scale = 0 := by omega
  have hpost : p.addSegment file_name start_time duration size =
      p1.slideWindow := by
    unfold MediaPlaylist.addSegment
    rw [if_neg hscale0]
  have ht1 : p1.type = p.type := rfl
  have hd1 : p1.time_shift_buffer_depth = p.time_shift_buffer_depth := rfl
  have hm1 : p1.media_sequence_number = p.media_sequence_number := rfl
  have hwf1 : ∀ fn s d, HlsEntry.extInf fn s d ∈ p1.entries →
      0 ≤ s ∧ 0 < d := by
    intro fn s d hmem
    rw [hp1e] at hmem
    rcases List.mem_append.mp hmem with hmem | hmem
    · exact hwf fn s d hmem
    · rw [List.mem_singleton] at hmem
      obtain ⟨hfn, hs, hd2⟩ := HlsEntry.extInf.inj hmem
      subst hs
      subst hd2
      refine ⟨by positivity, ?_⟩
      apply div_pos
      · exact_mod_cast hdur
      · exact_mod_cast hscale
  have hposend : ∀ e ∈ filterExtInf p1.entries, 0 < e.entryEnd := by
    intro e he
    have hmem := List.mem_filter.mp he
    rcases e with ⟨fn, s, d⟩ | ⟨m, u, k, i, kf, kv⟩ | _
    · obtain ⟨h0, h1⟩ := hwf1 fn s d hmem.1
      show (0 : ℚ) < s + d
      linarith
    · simp [HlsEntry.isSegmentEntry] at hmem
    · simp [HlsEntry.isSegmentEntry] at hmem
  have hguard1 : ¬ (p1.time_shift_buffer_depth ≤ 0 ∨
      p1.type ≠ MediaPlaylistType.live) := by
    rw [hd1, ht1, htype]
    refine not_or.mpr ⟨not_le.mpr hdepth, ?_⟩
    simp
  by_cases hg : hlsLatestSegmentStartTime p1.entries ≤
      p1.time_shift_buffer_depth
  · have hsw : p1.slideWindow = p1 := by
      unfold MediaPlaylist.slideWindow
      rw [if_neg hguard1]
      simp only []
      rw [if_pos hg]
    have hallneg : ∀ e ∈ filterExtInf p1.entries,
        (fun e => decide (HlsEntry.entryEnd e ≤ limit)) e = false := by
      intro e he
      simp only [decide_eq_false_iff_not, not_le]
      have h1 := hposend e he
      have h2 : limit ≤ 0 := by
        rw [hlimdef]
        rw [hd1] at hg
        linarith
      linarith
    obtain ⟨hdw, htw⟩ := dropWhile_takeWhile_all_neg _ _ hallneg
    refine ⟨hlatest, ?_, ?_, ?_⟩
    · rw [hpost, hsw, hdw]
    · rw [hpost, hsw, htw, hm1]
      rfl
    · obtain ⟨pre2, hpre2⟩ := lastKeyRun_suffix (hlsScanSplit limit p1.entries).1
      refine ⟨pre2, ?_⟩
      rw [hpost, hsw]
      have hstep : p1.entries =
          (pre2 ++ lastKeyRun (hlsScanSplit limit p1.entries).1) ++
            (hlsScanSplit limit p1.entries).2 := by
        conv_lhs => rw [← hlsScanSplit_decomposition limit p1.entries]
        exact congrArg (fun z => z ++ (hlsScanSplit limit p1.entries).2)
          hpre2.symm
      exact hstep
  · have hsw : p1.slideWindow =
        { p1 with
          entries := (hlsSlideLoop
              (hlsLatestSegmentStartTime p1.entries -
                p1.time_shift_buffer_depth) p1.entries [] false 0 0).kept_keys
            ++ (hlsSlideLoop
              (hlsLatestSegmentStartTime p1.entries -
                p1.time_shift_buffer_depth) p1.entries [] false 0 0).remaining
          media_sequence_number := p1.media_sequence_number +
            (hlsSlideLoop
              (hlsLatestSegmentStartTime p1.entries -
                p1.time_shift_buffer_depth) p1.entries [] false 0 0).removed
          discontinuity_sequence_number :=
            p1.discontinuity_sequence_number +
            (hlsSlideLoop
              (hlsLatestSegmentStartTime p1.entries -
                p1.time_shift_buffer_depth) p1.entries [] false 0 0).disc_passed
        } := by
      unfold MediaPlaylist.slideWindow
      rw [if_neg hguard1]
      simp only []
      rw [if_neg hg]
    have hlim2 : hlsLatestSegmentStartTime p1.entries -
        p1.time_shift_buffer_depth = limit := by rw [hlimdef, hd1]
    have hkeysall : ∀ x ∈ (hlsSlideLoop limit p1.entries [] false 0 0).kept_keys,
        x.isKeyEntry = true := by
      rw [hlsSlideLoop_kept_keys]
      exact keptKeysSpec_all_keys _ _ _ (by intro y hy; cases hy)
    refine ⟨hlatest, ?_, ?_, ?_⟩
    · rw [hpost, hsw]
      simp only [hlim2]
      rw [filterExtInf_append,
        filterExtInf_all_keys _ hkeysall,
        hlsSlideLoop_remaining,
        (filterExtInf_scanSplit limit p1.entries).2]
      rfl
    · rw [hpost, hsw]
      simp only [hlim2]
      rw [hlsSlideLoop_removed, hm1,
        (filterExtInf_scanSplit limit p1.entries).1]
      omega
    · rw [hpost, hsw]
      simp only [hlim2]
      rw [hlsSlideLoop_kept_keys, hlsSlideLoop_remaining]
      obtain ⟨pre2, hpre2⟩ :=
        (keptKeysSpec_suffix (hlsScanSplit limit p1.entries).1 [] false).1
      exact ⟨pre2, by rw [← hpre2, List.append_assoc]⟩

/-- Witness for C5: the sample live playlist receives a new segment at
20 ticks (2 s) of duration 30 ticks (3 s); with a 1 s window depth the old
segment is removed. -/
theorem hls_live_slide_window_spec_witness :
    sampleMediaPlaylist.type = MediaPlaylistType.live ∧
    0 < sampleMediaPlaylist.time_shift_buffer_depth ∧
    0 < sampleMediaPlaylist.time_scale ∧
    0 < 30 ∧
    (∀ fn s d, HlsEntry.extInf fn s d ∈ sampleMediaPlaylist.entries →
      0 ≤ s ∧ 0 < d) ∧
    (let p1 := sampleMediaPlaylist.appendSegmentEntry "s2.ts" 20 30 100
     let limit := hlsLatestSegmentStartTime p1.entries -
       sampleMediaPlaylist.time_shift_buffer_depth
     let post := sampleMediaPlaylist.addSegment "s2.ts" 20 30 100
     hlsLatestSegmentStartTime p1.entries =
        (20 : ℚ) / (sampleMediaPlaylist.time_scale : ℚ) ∧
     filterExtInf post.entries =
        (filterExtInf p1.entries).dropWhile
          (fun e => decide (e.entryEnd ≤ limit)) ∧
     post.media_sequence_number = sampleMediaPlaylist.media_sequence_number +
        ((filterExtInf p1.entries).takeWhile
          (fun e => decide (e.entryEnd ≤ limit))).length ∧
     ∃ pre2, post.entries =
        pre2 ++ lastKeyRun (hlsScanSplit limit p1.entries).1 ++
          (hlsScanSplit limit p1.entries).2) :=
  ⟨rfl, by norm_num [sampleMediaPlaylist], by norm_num [sampleMediaPlaylist],
    by norm_num,
    by
      intro fn s d h
      simp [sampleMediaPlaylist] at h
      obtain ⟨h1, h2, h3⟩ := h
      subst h2
      subst h3
      norm_num,
    by
      have := hls_live_slide_window_spec sampleMediaPlaylist "s2.ts" 20 30 100
        rfl (by norm_num [sampleMediaPlaylist])
        (by norm_num [sampleMediaPlaylist]) (by norm_num)
        (by
          intro fn s d h
          simp [sampleMediaPlaylist] at h
          obtain ⟨h1, h2, h3⟩ := h
          subst h2
          subst h3
          norm_num)
      simpa using this⟩

/-- C6: When a media playlist is written without an explicitly set target
duration, the written `EXT-X-TARGETDURATION` value equals
`ceil(longest segment duration in seconds)`, and the writer appends the
`#EXT-X-ENDLIST` terminator to the playlist if and only if the playlist
type is VOD (so a VOD playlist's content ends with it). -/
theorem hls_write_playlist_spec (p : MediaPlaylist) (version_line : String)
    (hset : p.target_duration_set = false)
    (hnonneg : 0 ≤ p.longest_segment_duration) :
    (((p.writeContent version_line).2.target_duration : ℤ) =
      Int.ceil p.longest_segment_duration) ∧
    (p.writeContent version_line).1.1 = createPlaylistHeader
      p.init_segment_name (Int.toNat (Int.ceil p.longest_segment_duration))
      p.type p.media_sequence_number p.discontinuity_sequence_number
      version_line ∧
    ((p.writeContent version_line).1.2.2 = "#EXT-X-ENDLIST\n" ↔
      p.type = MediaPlaylistType.vod) ∧
    (p.type = MediaPlaylistType.vod →
      ∃ s, (p.writeContent version_line).1.1 ++
        (p.writeContent version_line).1.2.1 ++
        (p.writeContent version_line).1.2.2 = s ++ "#EXT-X-ENDLIST\n") := by
  have hw : p.writeContent version_line =
      ((createPlaylistHeader p.init_segment_name
          (Int.toNat (Int.ceil p.longest_segment_duration)) p.type
          p.media_sequence_number p.discontinuity_sequence_number version_line,
        String.join (p.entries.map HlsEntry.render),
        if p.type = MediaPlaylistType.vod then "#EXT-X-ENDLIST\n" else ""),
       p.setTargetDuration (Int.toNat (Int.ceil p.longest_segment_duration)))
      := by
    unfold MediaPlaylist.writeContent
    rw [if_pos (by simp [hset])]
    rfl
  refine ⟨?_, ?_, ?_, ?_⟩
  · rw [hw]
    show ((Int.toNat (Int.ceil p.longest_segment_duration) : ℤ)) = _
    exact Int.toNat_of_nonneg (Int.ceil_nonneg hnonneg)
  · rw [hw]
  · rw [hw]
    simp only []
    by_cases hv : p.type = MediaPlaylistType.vod
    · simp [hv]
    · rw [if_neg hv]
      constructor
      · intro hc
        exact absurd hc (by decide)
      · intro hc
        exact absurd hc hv
  · intro hv
    rw [hw]
    simp only []
    rw [if_pos hv]
    exact ⟨_, rfl⟩

/-- Witness for C6 on the sample live playlist (its target duration was
never set explicitly). -/
theorem hls_write_playlist_spec_witness :
    sampleMediaPlaylist.target_duration_set = false ∧
    (0 : ℚ) ≤ sampleMediaPlaylist.longest_segment_duration ∧
    ((((sampleMediaPlaylist.writeContent "").2.target_duration : ℤ) =
      Int.ceil sampleMediaPlaylist.longest_segment_duration) ∧
    (sampleMediaPlaylist.writeContent "").1.1 = createPlaylistHeader
      sampleMediaPlaylist.init_segment_name
      (Int.toNat (Int.ceil sampleMediaPlaylist.longest_segment_duration))
      sampleMediaPlaylist.type sampleMediaPlaylist.media_sequence_number
      sampleMediaPlaylist.discontinuity_sequence_number "" ∧
    ((sampleMediaPlaylist.writeContent "").1.2.2 = "#EXT-X-ENDLIST\n" ↔
      sampleMediaPlaylist.type = MediaPlaylistType.vod) ∧
    (sampleMediaPlaylist.type = MediaPlaylistType.vod →
      ∃ s, (sampleMediaPlaylist.writeContent "").1.1 ++
        (sampleMediaPlaylist.writeContent "").1.2.1 ++
        (sampleMediaPlaylist.writeContent "").1.2.2 =
          s ++ "#EXT-X-ENDLIST\n")) :=
  ⟨rfl, by norm_num [sampleMediaPlaylist],
    hls_write_playlist_spec sampleMediaPlaylist "" rfl
      (by norm_num [sampleMediaPlaylist])⟩

/-- C10: For the fixed key source, `GetKey(key_id, key)` fails with NOT_FOUND
exactly when the queried key id differs from the one the source was
constructed with; otherwise it succeeds and outputs the configured key.  In
either case the source state is unchanged, and `GetKey(track_type)` always
succeeds with that same configured key. -/
theorem fixed_key_source_getKey_spec (s : KeySource) (key_id : List Nat)
    (t : TrackType) :
    (s.getKeyById key_id).1.code =
        (if key_id = s.encryption_key.key_id then ErrorCode.ok
         else ErrorCode.notFound) ∧
    (s.getKeyById key_id).2.1 =
        (if key_id = s.encryption_key.key_id then some s.encryption_key
         else none) ∧
    (s.getKeyById key_id).2.2 = s ∧
    s.getKeyByTrackType t = (Status.okStatus, s.encryption_key, s) := by
  by_cases h : key_id = s.encryption_key.key_id <;>
    simp [KeySource.getKeyById, KeySource.getKeyByTrackType, h, Status.okStatus]

/-- C3: `UpdateIv` advances a 16-byte IV by adding the block count of the
just-encrypted sample as a 128-bit big-endian integer with wrap, and an
8-byte IV by one as a 64-bit big-endian integer with wrap.  In particular it
reproduces every expected vector of `kIvTestCases` in
`aes_encryptor_unittest.cc` (the test sample is 60 bytes, i.e. 4 AES
blocks). -/
theorem aes_ctr_updateIv_spec (iv16 iv8 : List Nat) (n : Nat)
    (h16 : iv16.length = 16) (h8 : iv8.length = 8) :
    (beBytesToNat (updateIv iv16 n) = (beBytesToNat iv16 + n) % 2 ^ 128 ∧
      (updateIv iv16 n).length = 16) ∧
    (beBytesToNat (updateIv iv8 n) = (beBytesToNat iv8 + 1) % 2 ^ 64 ∧
      (updateIv iv8 n).length = 8) ∧
    updateIv kIv128Zero 4 = kIv128Four ∧
    updateIv kIv128Max64 4 = kIv128OneAndThree ∧
    updateIv kIv128MaxMinusOne 4 = kIv128Two ∧
    updateIv kIv64Zero n = kIv64One ∧
    updateIv kIv64MaxMinusOne n = kIv64Max ∧
    updateIv kIv64Max n = kIv64Zero := by
  refine ⟨⟨?_, ?_⟩, ⟨?_, ?_⟩, ?_, ?_, ?_, ?_, ?_, ?_⟩
  · rw [updateIv, if_pos h16, beBytesToNat_natToBeBytes]; norm_num
  · rw [updateIv, if_pos h16, natToBeBytes_length]
  · have : iv8.length ≠ 16 := by omega
    rw [updateIv, if_neg this, beBytesToNat_natToBeBytes]; norm_num
  · have : iv8.length ≠ 16 := by omega
    rw [updateIv, if_neg this, natToBeBytes_length]
  · decide
  · decide
  · decide
  · simp [updateIv, kIv64Zero, kIv64One, beBytesToNat, natToBeBytes]
  · simp [updateIv, kIv64MaxMinusOne, kIv64Max, beBytesToNat, natToBeBytes]
  · simp [updateIv, kIv64Max, kIv64Zero, beBytesToNat, natToBeBytes]

/-- Witness for C3 at concrete IVs. -/
theorem aes_ctr_updateIv_spec_witness :
    kIv128Zero.length = 16 ∧ kIv64Zero.length = 8 ∧
    (beBytesToNat (updateIv kIv128Zero 4) =
        (beBytesToNat kIv128Zero + 4) % 2 ^ 128 ∧
      (updateIv kIv128Zero 4).length = 16) ∧
    (beBytesToNat (updateIv kIv64Zero 4) =
        (beBytesToNat kIv64Zero + 1) % 2 ^ 64 ∧
      (updateIv kIv64Zero 4).length = 8) ∧
    updateIv kIv128Zero 4 = kIv128Four ∧
    updateIv kIv128Max64 4 = kIv128OneAndThree ∧
    updateIv kIv128MaxMinusOne 4 = kIv128Two ∧
    updateIv kIv64Zero 4 = kIv64One ∧
    updateIv kIv64MaxMinusOne 4 = kIv64Max ∧
    updateIv kIv64Max 4 = kIv64Zero :=
  ⟨by decide, by decide,
    aes_ctr_updateIv_spec kIv128Zero kIv64Zero 4 (by decide) (by decide)⟩

/-- C1: In single-segment mode, after `Finalize` the bytes of the output file
equal `ftyp || moov || sidx || concat(finalized fragments, in order)`;
`GetInitRange` returns offset 0 and size `len(ftyp)+len(moov)`, and
`GetIndexRange` returns offset `len(ftyp)+len(moov)` and size `len(sidx)`. -/
theorem single_segment_finalize_spec (ftyp moov : List Nat)
    (segs : List (SegmentIndex × List Nat))
    (hne : segs ≠ [])
    (hrefs : ∀ seg ∈ segs, seg.1.references ≠ []) :
    ∃ vodSidx : SegmentIndex,
      (segs.foldl SingleSegmentSegmenter.doFinalizeSegment
          (SingleSegmentSegmenter.init ftyp moov)).vod_sidx = some vodSidx ∧
      (segs.foldl SingleSegmentSegmenter.doFinalizeSegment
          (SingleSegmentSegmenter.init ftyp moov)).doFinalize =
        some (ftyp ++ moov ++ serializeSidx vodSidx ++
          (segs.map Prod.snd).flatten) ∧
      (segs.foldl SingleSegmentSegmenter.doFinalizeSegment
          (SingleSegmentSegmenter.init ftyp moov)).getInitRange =
        (0, ftyp.length + moov.length) ∧
      (segs.foldl SingleSegmentSegmenter.doFinalizeSegment
          (SingleSegmentSegmenter.init ftyp moov)).getIndexRange =
        some (ftyp.length + moov.length, (serializeSidx vodSidx).length) := by
  set st := segs.foldl SingleSegmentSegmenter.doFinalizeSegment
    (SingleSegmentSegmenter.init ftyp moov) with hst
  have hsome : st.vod_sidx.isSome :=
    singleSegment_vod_sidx_isSome _ segs hrefs (Or.inr hne)
  obtain ⟨vodSidx, hvs⟩ := Option.isSome_iff_exists.mp hsome
  have hfm := singleSegment_ftyp_moov_fold (SingleSegmentSegmenter.init ftyp moov) segs
  have hft : st.ftyp = ftyp := hfm.1
  have hmv : st.moov = moov := hfm.2
  have htf : st.temp_file = (segs.map Prod.snd).flatten := by
    have := singleSegment_temp_file_fold (SingleSegmentSegmenter.init ftyp moov)
      segs hrefs
    simpa [SingleSegmentSegmenter.init] using this
  refine ⟨vodSidx, hvs, ?_, ?_, ?_⟩
  · simp [SingleSegmentSegmenter.doFinalize, hvs, hft, hmv, htf]
  · simp [SingleSegmentSegmenter.getInitRange, hft, hmv]
  · simp [SingleSegmentSegmenter.getIndexRange, hvs, hft, hmv,
      serializeSidx_length]

/-- Witness for C1: one finalized segment with a single reference. -/
theorem single_segment_finalize_spec_witness :
    sampleSegments ≠ [] ∧
    (∀ seg ∈ sampleSegments, seg.1.references ≠ []) ∧
    ∃ vodSidx : SegmentIndex,
      (sampleSegments.foldl SingleSegmentSegmenter.doFinalizeSegment
          (SingleSegmentSegmenter.init [1, 2] [3, 4, 5])).vod_sidx =
        some vodSidx ∧
      (sampleSegments.foldl SingleSegmentSegmenter.doFinalizeSegment
          (SingleSegmentSegmenter.init [1, 2] [3, 4, 5])).doFinalize =
        some ([1, 2] ++ [3, 4, 5] ++ serializeSidx vodSidx ++
          (sampleSegments.map Prod.snd).flatten) ∧
      (sampleSegments.foldl SingleSegmentSegmenter.doFinalizeSegment
          (SingleSegmentSegmenter.init [1, 2] [3, 4, 5])).getInitRange =
        (0, [1, 2].length + [3, 4, 5].length) ∧
      (sampleSegments.foldl SingleSegmentSegmenter.doFinalizeSegment
          (SingleSegmentSegmenter.init [1, 2] [3, 4, 5])).getIndexRange =
        some ([1, 2].length + [3, 4, 5].length,
          (serializeSidx vodSidx).length) :=
  ⟨by simp [sampleSegments], by simp [sampleSegments, sampleSegmentIndex],
    single_segment_finalize_spec [1, 2] [3, 4, 5] sampleSegments
      (by simp [sampleSegments])
      (by simp [sampleSegments, sampleSegmentIndex])⟩


/-! ## Cue-alignment lemmas. -/

theorem cueGuarded_sample_cons (kind : StreamKind) (ts : ℤ) (s : CueSample)
    (rest : List OutEvent) :
    cueGuarded kind ts (OutEvent.sampleEvent s :: rest) =
      cueGuarded kind ts rest := rfl

theorem cueGuarded_cue_sample (kind : StreamKind) (ts : ℤ) (c : ℚ)
    (s : CueSample) (rest : List OutEvent) :
    cueGuarded kind ts
        (OutEvent.cueEvent c :: OutEvent.sampleEvent s :: rest) =
      (decide (c ≤ timeInSeconds kind ts s) && cueGuarded kind ts rest) := rfl

theorem cueGuarded_cue_nil (kind : StreamKind) (ts : ℤ) (c : ℚ) :
    cueGuarded kind ts [OutEvent.cueEvent c] = false := rfl

theorem cueGuarded_cue_cue (kind : StreamKind) (ts : ℤ) (c c2 : ℚ)
    (rest : List OutEvent) :
    cueGuarded kind ts
        (OutEvent.cueEvent c :: OutEvent.cueEvent c2 :: rest) = false := rfl

theorem dispatchCueIfNeeded_state (t : ℚ) (st : CueStreamState) :
    (dispatchCueIfNeeded t st).2.kind = st.kind ∧
    (dispatchCueIfNeeded t st).2.time_scale = st.time_scale ∧
    (dispatchCueIfNeeded t st).2.samples = st.samples := by
  unfold dispatchCueIfNeeded
  cases h : st.cue with
  | none => exact ⟨rfl, rfl, rfl⟩
  | some c =>
      simp only []
      by_cases hc : t < c
      · rw [if_pos hc]
        exact ⟨rfl, rfl, rfl⟩
      · rw [if_neg hc]
        exact ⟨rfl, rfl, rfl⟩

theorem dispatchCueIfNeeded_events (t : ℚ) (st : CueStreamState) :
    (dispatchCueIfNeeded t st).1 = [] ∨
      ∃ c, st.cue = some c ∧ c ≤ t ∧
        (dispatchCueIfNeeded t st).1 = [OutEvent.cueEvent c] := by
  unfold dispatchCueIfNeeded
  cases h : st.cue with
  | none => exact Or.inl rfl
  | some c =>
      simp only []
      by_cases hc : t < c
      · rw [if_pos hc]
        exact Or.inl rfl
      · rw [if_neg hc]
        exact Or.inr ⟨c, rfl, le_of_not_lt hc, rfl⟩

theorem acceptSample_state (s : CueSample) (st : CueStreamState) :
    (acceptSample s st).2.1.kind = st.kind ∧
    (acceptSample s st).2.1.time_scale = st.time_scale := by
  unfold acceptSample
  simp only []
  split
  · exact ⟨(dispatchCueIfNeeded_state _ _).1, (dispatchCueIfNeeded_state _ _).2.1⟩
  · split
    · exact ⟨rfl, rfl⟩
    · exact ⟨rfl, rfl⟩

theorem acceptSample_guarded (s : CueSample) (st : CueStreamState) :
    cueGuarded st.kind st.time_scale (acceptSample s st).1 = true := by
  unfold acceptSample
  simp only []
  split
  · rcases dispatchCueIfNeeded_events
        (timeInSeconds st.kind st.time_scale s) st with h | ⟨c, _, hc, h⟩
    · rw [h, List.nil_append, cueGuarded_sample_cons]
      rfl
    · rw [h, List.singleton_append, cueGuarded_cue_sample]
      simp [hc, cueGuarded]
  · split
    · rfl
    · rfl


theorem drainSamples_guarded (kind : StreamKind) (ts : ℤ) (hint : ℚ) :
    ∀ (l : List CueSample) (cue : Option ℚ),
      cueGuarded kind ts (drainSamples kind ts hint l cue).1 = true := by
  intro l
  induction l with
  | nil => intro cue; rfl
  | cons s rest ih =>
      intro cue
      unfold drainSamples
      simp only []
      split
      · rfl
      · cases cue with
        | none =>
            rw [List.nil_append, cueGuarded_sample_cons]
            exact ih none
        | some c =>
            simp only []
            split
            · rw [List.nil_append, cueGuarded_sample_cons]
              exact ih (some c)
            · rw [List.singleton_append, cueGuarded_cue_sample]
              rename_i hlt hnlt
              simp only [Bool.and_eq_true, decide_eq_true_eq]
              exact ⟨le_of_not_lt hnlt, ih none⟩

theorem useNewSyncPoint_state (c h : ℚ) (st : CueStreamState) :
    (useNewSyncPoint c h st).2.1.kind = st.kind ∧
    (useNewSyncPoint c h st).2.1.time_scale = st.time_scale := by
  unfold useNewSyncPoint
  split
  · exact ⟨rfl, rfl⟩
  · exact ⟨rfl, rfl⟩

theorem useNewSyncPoint_guarded (c h : ℚ) (st : CueStreamState) :
    cueGuarded st.kind st.time_scale (useNewSyncPoint c h st).1 = true := by
  unfold useNewSyncPoint
  split
  · rfl
  · exact drainSamples_guarded st.kind st.time_scale h st.samples (some c)

theorem videoOnSample_state (h : ℚ) (s : CueSample) (st : CueStreamState) :
    (videoOnSample h s st).2.kind = st.kind ∧
    (videoOnSample h s st).2.time_scale = st.time_scale := by
  unfold videoOnSample
  simp only []
  split
  · exact ⟨rfl, rfl⟩
  · exact ⟨rfl, rfl⟩

theorem videoOnSample_guarded (h : ℚ) (s : CueSample) (st : CueStreamState) :
    cueGuarded st.kind st.time_scale (videoOnSample h s st).1 = true := by
  unfold videoOnSample
  simp only []
  split
  · rw [cueGuarded_cue_sample]
    simp [cueGuarded]
  · rfl

theorem processOne_state (st : CueStreamState) (i : HandlerInput) :
    (processOne st i).2.1.kind = st.kind ∧
    (processOne st i).2.1.time_scale = st.time_scale := by
  cases i with
  | inSample s ph =>
      unfold processOne
      simp only []
      split
      · exact videoOnSample_state ph s st
      · exact acceptSample_state s st
  | inSync c h => exact useNewSyncPoint_state c h st

theorem processOne_guarded (st : CueStreamState) (i : HandlerInput) :
    cueGuarded st.kind st.time_scale (processOne st i).1 = true := by
  cases i with
  | inSample s ph =>
      unfold processOne
      simp only []
      split
      · exact videoOnSample_guarded ph s st
      · exact acceptSample_guarded s st
  | inSync c h => exact useNewSyncPoint_guarded c h st

theorem runHandler_state (inputs : List HandlerInput) : ∀ st : CueStreamState,
    (runHandler st inputs).2.1.kind = st.kind ∧
    (runHandler st inputs).2.1.time_scale = st.time_scale := by
  induction inputs with
  | nil => intro st; exact ⟨rfl, rfl⟩
  | cons i rest ih =>
      intro st
      unfold runHandler
      simp only []
      split
      · refine ⟨?_, ?_⟩
        · rw [(ih _).1, (processOne_state st i).1]
        · rw [(ih _).2, (processOne_state st i).2]
      · exact processOne_state st i

theorem cueGuarded_append_aux (kind : StreamKind) (ts : ℤ) :
    ∀ (n : Nat) (a b : List OutEvent), a.length ≤ n →
      cueGuarded kind ts a = true → cueGuarded kind ts b = true →
      cueGuarded kind ts (a ++ b) = true := by
  intro n
  induction n with
  | zero =>
      intro a b hlen ha hb
      have h0 : a = [] := List.eq_nil_of_length_eq_zero (Nat.le_zero.mp hlen)
      rw [h0, List.nil_append]
      exact hb
  | succ n ih =>
      intro a b hlen ha hb
      cases a with
      | nil => rw [List.nil_append]; exact hb
      | cons e rest =>
          cases e with
          | sampleEvent s =>
              rw [List.cons_append, cueGuarded_sample_cons]
              rw [cueGuarded_sample_cons] at ha
              refine ih rest b ?_ ha hb
              simp only [List.length_cons] at hlen
              omega
          | cueEvent c =>
              cases rest with
              | nil =>
                  rw [cueGuarded_cue_nil] at ha
                  exact absurd ha (by decide)
              | cons e2 r2 =>
                  cases e2 with
                  | cueEvent c2 =>
                      rw [cueGuarded_cue_cue] at ha
                      exact absurd ha (by decide)
                  | sampleEvent s =>
                      rw [cueGuarded_cue_sample, Bool.and_eq_true] at ha
                      rw [List.cons_append, List.cons_append,
                        cueGuarded_cue_sample, Bool.and_eq_true]
                      refine ⟨ha.1, ih r2 b ?_ ha.2 hb⟩
                      simp only [List.length_cons] at hlen
                      omega

theorem cueGuarded_append (kind : StreamKind) (ts : ℤ) (a b : List OutEvent)
    (ha : cueGuarded kind ts a = true) (hb : cueGuarded kind ts b = true) :
    cueGuarded kind ts (a ++ b) = true :=
  cueGuarded_append_aux kind ts a.length a b le_rfl ha hb

theorem runHandler_guarded (inputs : List HandlerInput) :
    ∀ st : CueStreamState,
      cueGuarded st.kind st.time_scale (runHandler st inputs).1 = true := by
  induction inputs with
  | nil => intro st; rfl
  | cons i rest ih =>
      intro st
      unfold runHandler
      simp only []
      split
      · refine cueGuarded_append st.kind st.time_scale _ _
          (processOne_guarded st i) ?_
        have hst := processOne_state st i
        have hg := ih (processOne st i).2.1
        rw [hst.1, hst.2] at hg
        exact hg
      · exact processOne_guarded st i

theorem cueGuarded_decompose_aux (kind : StreamKind) (ts : ℤ) :
    ∀ (n : Nat) (l : List OutEvent), l.length ≤ n →
      cueGuarded kind ts l = true →
      ∀ (a : List OutEvent) (C : ℚ) (b : List OutEvent),
        l = a ++ OutEvent.cueEvent C :: b →
        ∃ s b2, b = OutEvent.sampleEvent s :: b2 ∧
          C ≤ timeInSeconds kind ts s := by
  intro n
  induction n with
  | zero =>
      intro l hlen hg a C b hl
      have h0 : l = [] := List.eq_nil_of_length_eq_zero (Nat.le_zero.mp hlen)
      rw [h0] at hl
      exact absurd hl.symm (List.append_ne_nil_of_right_ne_nil a
        (List.cons_ne_nil _ _))
  | succ n ih =>
      intro l hlen hg a C b hl
      cases l with
      | nil =>
          exact absurd hl.symm (List.append_ne_nil_of_right_ne_nil a
            (List.cons_ne_nil _ _))
      | cons e rest =>
          cases e with
          | sampleEvent s =>
              rw [cueGuarded_sample_cons] at hg
              cases a with
              | nil => simp at hl
              | cons a0 a1 =>
                  rw [List.cons_append] at hl
                  have h1 := List.cons.injEq .. ▸ hl
                  refine ih rest ?_ hg a1 C b (List.tail_eq_of_cons_eq hl)
                  simp only [List.length_cons] at hlen
                  omega
          | cueEvent c =>
              cases rest with
              | nil =>
                  rw [cueGuarded_cue_nil] at hg
                  exact absurd hg (by decide)
              | cons e2 r2 =>
                  cases e2 with
                  | cueEvent c2 =>
                      rw [cueGuarded_cue_cue] at hg
                      exact absurd hg (by decide)
                  | sampleEvent s =>
                      rw [cueGuarded_cue_sample, Bool.and_eq_true,
                        decide_eq_true_eq] at hg
                      cases a with
                      | nil =>
                          simp only [List.nil_append, List.cons.injEq] at hl
                          rcases hl with ⟨hC, hb⟩
                          cases OutEvent.cueEvent.injEq .. ▸ hC
                          exact ⟨s, r2, hb.symm, by
                            have := hg.1
                            rwa [OutEvent.cueEvent.inj hC] at this⟩
                      | cons a0 a1 =>
                          cases a1 with
                          | nil =>
                              simp only [List.cons_append, List.nil_append,
                                List.cons.injEq] at hl
                              exact absurd hl.2.1 (by simp)
                          | cons a10 a11 =>
                              simp only [List.cons_append,
                                List.cons.injEq] at hl
                              refine ih r2 ?_ hg.2 a11 C b hl.2.2
                              simp only [List.length_cons] at hlen
                              omega

theorem cueGuarded_decompose (kind : StreamKind) (ts : ℤ)
    (l : List OutEvent) (hg : cueGuarded kind ts l = true)
    (a : List OutEvent) (C : ℚ) (b : List OutEvent)
    (hl : l = a ++ OutEvent.cueEvent C :: b) :
    ∃ s b2, b = OutEvent.sampleEvent s :: b2 ∧
      C ≤ timeInSeconds kind ts s :=
  cueGuarded_decompose_aux kind ts l.length l le_rfl hg a C b hl

/-- C4: In the cue-alignment handler, every dispatched cue event is
immediately followed by a sample whose position, measured by
`TimeInSeconds` (pts for video, midpoint `pts + duration / 2` for audio,
start time over 1000 for text, each divided by the time scale), lies at or
after the cue time: for any per-stream state and input sequence the
dispatched event list is cue-guarded, so wherever a cue event at time `C`
appears, the next dispatched event is a sample at or after `C`. -/
theorem cue_alignment_spec (st : CueStreamState)
    (inputs : List HandlerInput) :
    cueGuarded st.kind st.time_scale (runHandler st inputs).1 = true ∧
    ∀ (a : List OutEvent) (C : ℚ) (b : List OutEvent),
      (runHandler st inputs).1 = a ++ OutEvent.cueEvent C :: b →
      ∃ s b2, b = OutEvent.sampleEvent s :: b2 ∧
        C ≤ timeInSeconds st.kind st.time_scale s := by
  refine ⟨runHandler_guarded inputs st, ?_⟩
  intro a C b hl
  exact cueGuarded_decompose st.kind st.time_scale _
    (runHandler_guarded inputs st) a C b hl

/-- Witness: on a fresh audio stream, a sync point at time 2 followed by a
sample at time 3 dispatches the cue event and then that sample, which
indeed lies at or after the cue. -/
theorem cue_alignment_spec_witness :
    ∃ s b2,
      [OutEvent.sampleEvent (CueSample.media 3 0 false)] =
        OutEvent.sampleEvent s :: b2 ∧
      (2 : ℚ) ≤ timeInSeconds cueRunState.kind cueRunState.time_scale s :=
  (cue_alignment_spec cueRunState cueRunInputs).2 [] 2
    [OutEvent.sampleEvent (CueSample.media 3 0 false)] (by
      norm_num [runHandler, processOne, useNewSyncPoint, drainSamples,
        acceptSample, dispatchCueIfNeeded, timeInSeconds, cueRunState,
        cueRunInputs, Status.isOk, Status.okStatus, kMaxBufferSize,
        Int.zero_tdiv,
        (by decide : ¬ StreamKind.audio = StreamKind.video)])

/-- C9: A non-video stream buffers at most `kMaxBufferSize = 1000`
samples: `Process` on a sample of a non-video stream runs `AcceptSample`;
whenever `AcceptSample` succeeds the buffer holds at most 1000 samples,
and when the stream already holds 1000 buffered samples, accepting one
more dispatches nothing and fails with `INVALID_ARGUMENT`
("Streams are not properly multiplexed."). -/
theorem cue_buffer_cap_spec (s : CueSample) (st : CueStreamState) (ph : ℚ)
    (hk : ¬ st.kind = StreamKind.video) :
    processOne st (HandlerInput.inSample s ph) = acceptSample s st ∧
    ((acceptSample s st).2.2.isOk = true →
      (acceptSample s st).2.1.samples.length ≤ kMaxBufferSize) ∧
    (kMaxBufferSize ≤ st.samples.length →
      (acceptSample s st).1 = [] ∧
      (acceptSample s st).2.2 =
        ⟨ErrorCode.invalidArgument,
          "Streams are not properly multiplexed."⟩) := by
  refine ⟨?_, ?_, ?_⟩
  · unfold processOne
    simp only []
    rw [if_neg hk]
  · unfold acceptSample
    simp only []
    split
    · rename_i hcond
      intro _
      show (dispatchCueIfNeeded
          (timeInSeconds st.kind st.time_scale s) st).2.samples.length ≤
        kMaxBufferSize
      rw [(dispatchCueIfNeeded_state _ _).2.2, hcond.1]
      simp [kMaxBufferSize]
    · split
      · intro hok
        simp [Status.isOk] at hok
      · rename_i hngt
        intro _
        show (st.samples ++ [s]).length ≤ kMaxBufferSize
        simp only [gt_iff_lt, List.length_append,
          List.length_singleton] at hngt ⊢
        omega
  · intro hfull
    unfold acceptSample
    simp only []
    have hne : ¬ (st.samples = [] ∧
        timeInSeconds st.kind st.time_scale s < st.next_cue_hint) := by
      rintro ⟨hnil, _⟩
      rw [hnil] at hfull
      simp only [List.length_nil, kMaxBufferSize] at hfull
      omega
    rw [if_neg hne]
    have hgt : ({ st with samples := st.samples ++ [s] } :
        CueStreamState).samples.length > kMaxBufferSize := by
      simp only [List.length_append, List.length_singleton, gt_iff_lt]
      omega
    rw [if_pos hgt]
    exact ⟨rfl, rfl⟩

/-- Witness: an audio stream already holding 1000 buffered samples rejects
the next sample with `INVALID_ARGUMENT` and dispatches nothing. -/
theorem cue_buffer_cap_spec_witness :
    (acceptSample cueCapSample cueCapState).1 = [] ∧
    (acceptSample cueCapSample cueCapState).2.2 =
      ⟨ErrorCode.invalidArgument,
        "Streams are not properly multiplexed."⟩ :=
  (cue_buffer_cap_spec cueCapSample cueCapState 0 (by decide)).2.2
    (by simp [cueCapState])

/-! ## Demuxer lemmas. -/

theorem demuxerLoop_cancel (cancelled : Nat → Bool) (file_name : String)
    (flushOk : Bool) :
    ∀ (j : Nat) (chunks : List ChunkRead) (i : Nat),
      cancelled (i + j) = true →
      j ≤ chunks.length →
      (∀ k, k < j → chunks[k]? = some (ChunkRead.bytes true)) →
      demuxerLoop cancelled file_name flushOk i chunks =
        (Status.okStatus, true) := by
  intro j
  induction j with
  | zero =>
      intro chunks i hc _ _
      unfold demuxerLoop
      rw [Nat.add_zero] at hc
      rw [if_pos hc]
  | succ j ih =>
      intro chunks i hc hlen hk
      unfold demuxerLoop
      by_cases hci : cancelled i = true
      · rw [if_pos hci]
      · rw [if_neg hci]
        cases chunks with
        | nil => simp at hlen
        | cons c0 rest =>
            have h0 := hk 0 (Nat.succ_pos j)
            simp only [List.getElem?_cons_zero, Option.some.injEq] at h0
            subst h0
            simp only []
            rw [if_pos trivial]
            refine ih rest (i + 1) ?_ ?_ ?_
            · have harith : i + (j + 1) = (i + 1) + j := by omega
              rwa [harith] at hc
            · simp only [List.length_cons] at hlen
              omega
            · intro k hkk
              have := hk (k + 1) (by omega)
              rwa [List.getElem?_cons_succ] at this

theorem demuxerLoop_eos (cancelled : Nat → Bool) (file_name : String)
    (hnc : ∀ i, cancelled i = false) :
    ∀ (chunks : List ChunkRead) (i : Nat),
      (∀ c ∈ chunks, c = ChunkRead.bytes true) →
      demuxerLoop cancelled file_name true i chunks =
        (⟨ErrorCode.endOfStream, ""⟩, false) := by
  intro chunks
  induction chunks with
  | nil =>
      intro i _
      unfold demuxerLoop
      rw [if_neg (by simp [hnc i])]
      rfl
  | cons c0 rest ih =>
      intro i hall
      have h0 : c0 = ChunkRead.bytes true := hall c0 (List.mem_cons_self c0 rest)
      subst h0
      unfold demuxerLoop
      rw [if_neg (by simp [hnc i])]
      simp only []
      rw [if_pos trivial]
      exact ih (i + 1) (fun c hc => hall c (List.mem_cons_of_mem _ hc))

/-- C8: `Demuxer::Run` returns CANCELLED ("Demuxer run cancelled") when the
cancellation flag set from another thread stops the parse loop (the
iterations before that having parsed their chunks successfully), leaving
the streams untouched; and when the input reaches end of file with a
successful parser flush (`END_OF_STREAM` from `Parse`), it pushes one
end-of-stream sample onto every stream, returning OK when there is at
least one stream. -/
theorem demuxer_run_spec (streams : List (List DemuxSample))
    (cancelled : Nat → Bool) (file_name : String)
    (chunks : List ChunkRead) (flushOk : Bool) :
    ((∃ j, j ≤ chunks.length ∧ cancelled j = true ∧
        ∀ k, k < j → chunks[k]? = some (ChunkRead.bytes true)) →
      demuxerRun streams cancelled file_name chunks flushOk =
        (⟨ErrorCode.cancelled, "Demuxer run cancelled"⟩, streams)) ∧
    ((∀ i, cancelled i = false) →
      (∀ c ∈ chunks, c = ChunkRead.bytes true) → flushOk = true →
      (demuxerRun streams cancelled file_name chunks flushOk).2 =
        streams.map (fun q => q ++ [DemuxSample.eos]) ∧
      (¬ streams = [] →
        (demuxerRun streams cancelled file_name chunks flushOk).1 =
          Status.okStatus)) := by
  constructor
  · rintro ⟨j, hj, hcj, hk⟩
    have hloop := demuxerLoop_cancel cancelled file_name flushOk j chunks 0
      (by simpa using hcj) hj hk
    unfold demuxerRun
    simp only []
    rw [hloop, if_pos ⟨rfl, rfl⟩]
  · intro hnc hall hflush
    subst hflush
    have hloop := demuxerLoop_eos cancelled file_name hnc chunks 0 hall
    unfold demuxerRun
    simp only []
    rw [hloop, if_neg (by simp), if_pos rfl]
    refine ⟨rfl, fun hs => ?_⟩
    rw [if_neg hs]

/-- Witness: the flag raised at iteration 1 cancels a two-chunk run,
leaving the single stream untouched. -/
theorem demuxer_run_spec_witness :
    demuxerRun [[DemuxSample.real 1]] (fun i => decide (i = 1)) "f"
        [ChunkRead.bytes true, ChunkRead.bytes true] true =
      (⟨ErrorCode.cancelled, "Demuxer run cancelled"⟩,
        [[DemuxSample.real 1]]) :=
  (demuxer_run_spec [[DemuxSample.real 1]] (fun i => decide (i = 1)) "f"
      [ChunkRead.bytes true, ChunkRead.bytes true] true).1
    ⟨1, by decide, by decide, fun k hk => by
      have hk0 : k = 0 := by omega
      subst hk0
      rfl⟩

/-! ## Master playlist audio-tag lemmas. -/

theorem audioGroupFlags_spec (dl : String) :
    ∀ (ps : List AudioPlaylistInfo) (seen : List String) (i : Nat)
      (p : AudioPlaylistInfo) (d a : Bool),
      ps[i]? = some p →
      (audioGroupFlags dl ps seen)[i]? = some (d, a) →
      (a = true ↔
        (¬ p.language ∈ seen ∧
          ¬ p.language ∈ (ps.take i).map AudioPlaylistInfo.language)) ∧
      (d = true ↔
        (a = true ∧ ¬ p.language = "" ∧ p.language = dl)) := by
  intro ps
  induction ps with
  | nil =>
      intro seen i p d a hp _
      simp at hp
  | cons p0 rest ih =>
      intro seen i p d a hp hf
      unfold audioGroupFlags at hf
      cases i with
      | zero =>
          simp only [List.getElem?_cons_zero, Option.some.injEq] at hp
          subst hp
          by_cases hmem : p0.language ∈ seen
          · rw [if_pos hmem] at hf
            simp only [List.getElem?_cons_zero, Option.some.injEq,
              Prod.mk.injEq] at hf
            obtain ⟨hd, ha⟩ := hf
            subst hd
            subst ha
            exact ⟨by simp [hmem], by simp⟩
          · rw [if_neg hmem] at hf
            simp only [List.getElem?_cons_zero, Option.some.injEq,
              Prod.mk.injEq] at hf
            obtain ⟨hd, ha⟩ := hf
            subst hd
            subst ha
            refine ⟨by simp [hmem], ?_⟩
            simp [Bool.and_eq_true, bne_iff_ne, beq_iff_eq]
      | succ k =>
          simp only [List.getElem?_cons_succ] at hp
          by_cases hmem : p0.language ∈ seen
          · rw [if_pos hmem] at hf
            simp only [List.getElem?_cons_succ] at hf
            have h := ih seen k p d a hp hf
            refine ⟨?_, h.2⟩
            rw [h.1]
            simp only [List.take_succ_cons, List.map_cons, List.mem_cons]
            constructor
            · rintro ⟨h1, h2⟩
              refine ⟨h1, ?_⟩
              rintro (he | hm)
              · exact h1 (by rw [he]; exact hmem)
              · exact h2 hm
            · rintro ⟨h1, h2⟩
              exact ⟨h1, fun hm => h2 (Or.inr hm)⟩
          · rw [if_neg hmem] at hf
            simp only [List.getElem?_cons_succ] at hf
            have h := ih (p0.language :: seen) k p d a hp hf
            refine ⟨?_, h.2⟩
            rw [h.1]
            simp only [List.take_succ_cons, List.map_cons, List.mem_cons]
            constructor
            · rintro ⟨h1, h2⟩
              push_neg at h1
              refine ⟨h1.2, ?_⟩
              rintro (he | hm)
              · exact h1.1 he
              · exact h2 hm
            · rintro ⟨h1, h2⟩
              refine ⟨?_, fun hm => h2 (Or.inr hm)⟩
              rintro (he | hm)
              · exact h2 (Or.inl he)
              · exact h1 hm

/-- C7: In an audio group of the master playlist, the `(DEFAULT,
AUTOSELECT)` flags computed for the playlist at position `i` satisfy:
`AUTOSELECT=YES` exactly when no earlier playlist of the group has the
same language (the first rendition of each distinct language), and
`DEFAULT=YES` exactly when additionally the language is non-empty and
equals `default_language_`; concretely, with languages `en` and `fr` and
default language `en`, exactly two `#EXT-X-MEDIA:TYPE=AUDIO` lines are
emitted, the `en` line with `DEFAULT=YES,AUTOSELECT=YES` and the `fr`
line with `AUTOSELECT=YES` only. -/
theorem master_playlist_audio_spec (dl : String)
    (ps : List AudioPlaylistInfo) (i : Nat) (p : AudioPlaylistInfo)
    (d a : Bool) (hp : ps[i]? = some p)
    (hf : (audioGroupFlags dl ps [])[i]? = some (d, a)) :
    ((a = true ↔
        ¬ p.language ∈ (ps.take i).map AudioPlaylistInfo.language) ∧
      (d = true ↔
        (a = true ∧ ¬ p.language = "" ∧ p.language = dl))) ∧
    writeAudioGroup "" "audio" "en" [audioEn, audioFr] =
      "#EXT-X-MEDIA:TYPE=AUDIO,URI=\"audio-en.m3u8\",GROUP-ID=\"audio\"," ++
        "LANGUAGE=\"en\",NAME=\"english\",DEFAULT=YES,AUTOSELECT=YES," ++
        "CHANNELS=\"2\"\n" ++
      ("#EXT-X-MEDIA:TYPE=AUDIO,URI=\"audio-fr.m3u8\",GROUP-ID=\"audio\"," ++
        "LANGUAGE=\"fr\",NAME=\"french\",AUTOSELECT=YES," ++
        "CHANNELS=\"2\"\n") := by
  constructor
  · have h := audioGroupFlags_spec dl ps [] i p d a hp hf
    refine ⟨?_, h.2⟩
    rw [h.1]
    simp
  · rfl

/-- Witness: the second (`fr`) playlist of the two-language group gets
`AUTOSELECT` (its language is new) but not `DEFAULT` (it differs from the
default language `en`). -/
theorem master_playlist_audio_spec_witness :
    ((true = true ↔
        ¬ audioFr.language ∈
          (([audioEn, audioFr].take 1).map AudioPlaylistInfo.language)) ∧
      (false = true ↔
        (true = true ∧ ¬ audioFr.language = "" ∧
          audioFr.language = "en"))) ∧
    writeAudioGroup "" "audio" "en" [audioEn, audioFr] =
      "#EXT-X-MEDIA:TYPE=AUDIO,URI=\"audio-en.m3u8\",GROUP-ID=\"audio\"," ++
        "LANGUAGE=\"en\",NAME=\"english\",DEFAULT=YES,AUTOSELECT=YES," ++
        "CHANNELS=\"2\"\n" ++
      ("#EXT-X-MEDIA:TYPE=AUDIO,URI=\"audio-fr.m3u8\",GROUP-ID=\"audio\"," ++
        "LANGUAGE=\"fr\",NAME=\"french\",AUTOSELECT=YES," ++
        "CHANNELS=\"2\"\n") :=
  master_playlist_audio_spec "en" [audioEn, audioFr] 1 audioFr false true
    rfl rfl

end Shaka
